import Mathlib

/-!
# A verification development for the `todo-rs` Todo.txt library

Shallow embedding of the library's data model and operations.  Rust strings
are modelled as `List Char` (a list of Unicode scalar values, exactly the
`char` sequence of a valid UTF-8 Rust `String`); byte lengths are recovered
with `Char.utf8Size` where the source uses `str::len`.  `chrono::NaiveDate`
is modelled by an explicit year/month/day record together with the behaviour
of `NaiveDate::parse_from_str(s, "%Y-%m-%d")` and `format("%Y-%m-%d")`.
Fallible operations return `Except TodoError` mirroring the crate's
`Result<T, TodoError>`.
-/

namespace TodoRs

/-! ## Characters and strings (Rust `str` semantics over `List Char`) -/

/-- Rust `char::is_whitespace`: the Unicode `White_Space` property. -/
def rustWhitespace (c : Char) : Bool :=
  let n := c.toNat
  (9 ≤ n && n ≤ 13) || n == 32 || n == 0x85 || n == 0xA0 || n == 0x1680 ||
  (0x2000 ≤ n && n ≤ 0x200A) || n == 0x2028 || n == 0x2029 || n == 0x202F ||
  n == 0x205F || n == 0x3000

/-- `true` when the string contains no whitespace character
(Rust `!s.contains(char::is_whitespace)`). -/
def noWs (s : List Char) : Bool := s.all (fun c => !rustWhitespace c)

/-- Rust `str::len`: the length of the string in UTF-8 bytes. -/
def strByteLen (s : List Char) : Nat := (s.map Char.utf8Size).sum

/-- Accumulator-passing worker for `splitWhitespace`.  `acc` holds the
characters of the token currently being read, most recent first. -/
def splitWsAux : List Char → List Char → List (List Char)
  | [], acc => if acc = [] then [] else [acc.reverse]
  | c :: rest, acc =>
    if rustWhitespace c then
      if acc = [] then splitWsAux rest []
      else acc.reverse :: splitWsAux rest []
    else splitWsAux rest (c :: acc)

/-- Rust `str::split_whitespace`: the maximal whitespace-free nonempty
chunks of a string, in order. -/
def splitWhitespace (s : List Char) : List (List Char) := splitWsAux s []

/-- Rust `Vec::join(" ")`: concatenate with a single space between items. -/
def joinSep : List (List Char) → List Char
  | [] => []
  | [w] => w
  | w :: ws => w ++ ' ' :: joinSep ws

/-- Rust `str::trim`: drop leading and trailing whitespace. -/
def trim (s : List Char) : List Char :=
  ((s.dropWhile rustWhitespace).reverse.dropWhile rustWhitespace).reverse

/-- Split a string at every occurrence of `sep` (Rust `str::split(sep)`):
always returns at least one (possibly empty) chunk. -/
def splitOnChar (sep : Char) : List Char → List (List Char)
  | [] => [[]]
  | c :: rest =>
    if c = sep then [] :: splitOnChar sep rest
    else
      match splitOnChar sep rest with
      | [] => [[c]]
      | g :: gs => (c :: g) :: gs

/-- Rust `str::strip_suffix('\r').unwrap_or(s)` as used by `str::lines`. -/
def stripCR (s : List Char) : List Char :=
  if s.getLast? = some '\r' then s.dropLast else s

/-- Rust `str::lines`: split at `'\n'`, remove a `'\r'` that preceded each
`'\n'`, and do not yield a final empty line after a trailing `'\n'`.
A final chunk not terminated by `'\n'` keeps any trailing `'\r'`. -/
def rustLines (s : List Char) : List (List Char) :=
  let parts := splitOnChar '\n' s
  parts.dropLast.map stripCR ++
    (match parts.getLast? with
     | some [] => []
     | some l => [l]
     | none => [])

/-- Lexicographic `≤` on strings by Unicode scalar value; for valid UTF-8
this coincides with Rust's byte-wise `Ord` on `str`. -/
def lexLe : List Char → List Char → Bool
  | [], _ => true
  | _ :: _, [] => false
  | a :: xs, b :: ys => if a < b then true else if a = b then lexLe xs ys else false

/-! ## Dates: `chrono::NaiveDate` and the `%Y-%m-%d` format -/

/-- A calendar date, the model of `chrono::NaiveDate`.  The `NaiveDate` type
invariant (calendar-valid, year in `[-262144, 262143]`) is `dateValid`. -/
structure Date where
  year : Int
  month : Nat
  day : Nat
deriving DecidableEq

/-- Proleptic Gregorian leap year, as used by chrono. -/
def isLeap (y : Int) : Bool := y % 4 == 0 && (y % 100 != 0 || y % 400 == 0)

/-- Days in a month of the proleptic Gregorian calendar. -/
def daysInMonth (y : Int) (m : Nat) : Nat :=
  if m == 2 then (if isLeap y then 29 else 28)
  else if m == 4 || m == 6 || m == 9 || m == 11 then 30
  else 31

/-- The validity condition enforced by `NaiveDate::from_ymd_opt`. -/
def dateValid (y : Int) (m d : Nat) : Bool :=
  1 ≤ m && m ≤ 12 && 1 ≤ d && d ≤ daysInMonth y m &&
  (-262144 ≤ y && y ≤ 262143)

/-- `chrono::NaiveDate::from_ymd_opt`. -/
def from_ymd_opt (y : Int) (m d : Nat) : Option Date :=
  if dateValid y m d then some (Date.mk y m d) else none

/-- Numeric value of a list of ASCII digit characters, most significant
first (chrono `scan::number` accumulation). -/
def digitsVal (ds : List Char) : Nat :=
  ds.foldl (fun a c => a * 10 + (c.toNat - 48)) 0

/-- chrono `format::scan::number(s, 1, max)`: read the leading run of ASCII
digits, capped at `max` digits; fail when there is none. -/
def scanNumber (max : Nat) (s : List Char) : Option (Nat × List Char) :=
  let ds := (s.takeWhile Char.isDigit).take max
  if ds = [] then none else some (digitsVal ds, s.drop ds.length)

/-- The `%Y` field of chrono's parser: numeric fields skip leading
whitespace; an explicit `'-'` or `'+'` sign admits an unbounded digit run,
an unsigned year reads at most 4 digits. -/
def parseYearField (s : List Char) : Option (Int × List Char) :=
  match s.dropWhile rustWhitespace with
  | '-' :: r => (scanNumber r.length r).map (fun p => (-(p.1 : Int), p.2))
  | '+' :: r => (scanNumber r.length r).map (fun p => ((p.1 : Int), p.2))
  | r => (scanNumber 4 r).map (fun p => ((p.1 : Int), p.2))

/-- An unsigned numeric field (`%m`, `%d`) of chrono's parser: skip leading
whitespace, then read 1 to `max` digits. -/
def parseNumField (max : Nat) (s : List Char) : Option (Nat × List Char) :=
  scanNumber max (s.dropWhile rustWhitespace)

/-- `parse_date` of `src/parser.rs`:
`NaiveDate::parse_from_str(s, "%Y-%m-%d")`, with the `InvalidDateFormat`
payload elided to `Option` (every caller only distinguishes `Ok` from
`Err`).  The format string requires a year field, a literal `'-'`, a month
field, a literal `'-'`, a day field, then end of input, and the parsed
numbers must form a valid calendar date. -/
def parse_date (s : List Char) : Option Date :=
  match parseYearField s with
  | none => none
  | some (y, s1) =>
    match s1 with
    | '-' :: s2 =>
      match parseNumField 2 s2 with
      | none => none
      | some (m, s3) =>
        match s3 with
        | '-' :: s4 =>
          match parseNumField 2 s4 with
          | none => none
          | some (d, s5) => if s5 = [] then from_ymd_opt y m d else none
        | _ => none
    | _ => none

/-- The ASCII digit character of `n % 10`. -/
def digitChar (n : Nat) : Char := Char.ofNat (48 + n % 10)

/-- Two-digit zero-padded rendering (`{:02}` for values below 100). -/
def pad2 (n : Nat) : List Char := [digitChar (n / 10), digitChar n]

/-- Four-digit zero-padded rendering (`{:04}` for values below 10000). -/
def pad4 (n : Nat) : List Char :=
  [digitChar (n / 1000), digitChar (n / 100), digitChar (n / 10), digitChar n]

/-- Fuelled decimal printer worker. -/
def natDigitsGo : Nat → Nat → List Char
  | 0, _ => []
  | fuel + 1, n => if n < 10 then [digitChar n] else natDigitsGo fuel (n / 10) ++ [digitChar n]

/-- Decimal digits of `n`, most significant first, no padding. -/
def natDigits (n : Nat) : List Char := natDigitsGo (n + 1) n

/-- chrono's `%Y` formatting: years in `0..=9999` print as 4 zero-padded
digits; years outside that range print with an explicit sign, zero-padded
to at least 4 digits after the sign (`{:+05}` overall). -/
def renderYear (y : Int) : List Char :=
  if 0 ≤ y ∧ y < 10000 then pad4 y.toNat
  else if y < 0 then
    '-' :: (if -y < 10000 then pad4 (-y).toNat else natDigits (-y).toNat)
  else '+' :: natDigits y.toNat

/-- `date.format("%Y-%m-%d")` of chrono. -/
def renderDate (d : Date) : List Char :=
  renderYear d.year ++ '-' :: pad2 d.month ++ '-' :: pad2 d.day

/-! ## `Priority` (src/priority.rs) -/

/-- `Priority(char)`: a single-letter priority.  The Rust constructor
enforces that the letter is an ASCII uppercase A–Z. -/
structure Priority where
  c : Char
deriving DecidableEq

/-- `Priority::new`: succeeds exactly on ASCII uppercase letters. -/
def Priority.new (c : Char) : Option Priority :=
  if 'A' ≤ c ∧ c ≤ 'Z' then some (Priority.mk c) else none

/-- `Priority::as_char`. -/
def Priority.as_char (p : Priority) : Char := p.c

/-- `impl fmt::Display for Priority`: `"(X)"`. -/
def renderPriority (p : Priority) : List Char := ['(', p.c, ')']

/-! ## Errors (src/error.rs) -/

/-- `TodoError`.  Payloads carry the same data the Rust variants carry;
the `IoError` payload is irrelevant to parsing and kept abstract. -/
inductive TodoError where
  | ParseError (msg : List Char)
  | InvalidDateFormat (s : List Char)
  | InvalidPriority (msg : List Char)
  | IoError (msg : List Char)
  | IndexOutOfBounds (idx : Nat)
deriving DecidableEq

/-- Message of the empty-line `ParseError`. -/
def msgEmptyLine : List Char := "空の行はパースできません".data

/-- Message of the empty-content `ParseError`. -/
def msgEmptyTask : List Char := "タスクの内容が空です".data

/-- Prefix of the malformed-priority `InvalidPriority` message. -/
def msgPrioFormat : List Char := "無効な優先度フォーマット: ".data

/-- Prefix of the not-a-letter `InvalidPriority` message. -/
def msgPrioLetter : List Char := "優先度は A-Z である必要があります: ".data

/-- `impl FromStr for Priority`: accepts exactly byte-length-3 strings of
the form `(X)`, and requires the middle character to be ASCII uppercase. -/
def priorityFromStr (s : List Char) : Except TodoError Priority :=
  if strByteLen s = 3 ∧ s.head? = some '(' ∧ s.getLast? = some ')' then
    match s.get? 1 with
    | some c =>
      match Priority.new c with
      | some p => Except.ok p
      | none => Except.error (TodoError.InvalidPriority (msgPrioLetter ++ [c]))
    | none => Except.error (TodoError.InvalidPriority msgPrioFormat)
  else Except.error (TodoError.InvalidPriority (msgPrioFormat ++ s))

/-! ## `Todo` (src/todo.rs) -/

/-- The task record.  `tags` models the Rust `HashMap<String, String>` as an
association list with unique keys; `tagsInsert` is `HashMap::insert`
(replace the value of an existing key, otherwise add the entry), and only
the key-value mapping of `tags` is observable (serialization sorts by key,
`HashMap` iteration order is unspecified). -/
structure Todo where
  completed : Bool
  priority : Option Priority
  completion_date : Option Date
  creation_date : Option Date
  description : List Char
  contexts : List (List Char)
  projects : List (List Char)
  tags : List (List Char × List Char)
deriving DecidableEq

/-- `Todo::new`. -/
def Todo.new (description : List Char) : Todo :=
  { completed := false, priority := none, completion_date := none,
    creation_date := none, description := description,
    contexts := [], projects := [], tags := [] }

/-- `HashMap::insert` on the association-list model. -/
def tagsInsert (k v : List Char) : List (List Char × List Char) → List (List Char × List Char)
  | [] => [(k, v)]
  | kv :: rest => if kv.1 = k then (k, v) :: rest else kv :: tagsInsert k v rest

/-- `HashMap::get` on the association-list model. -/
def tagsLookup (k : List Char) : List (List Char × List Char) → Option (List Char)
  | [] => none
  | kv :: rest => if kv.1 = k then some kv.2 else tagsLookup k rest

/-- `Todo::complete`; the wall-clock read is made explicit as a `today`
parameter (the current local date at the call). -/
def Todo.complete (t : Todo) (today : Date) : Todo :=
  { t with completed := true,
           completion_date := if t.completion_date = none then some today
                              else t.completion_date }

/-- `Todo::uncomplete`. -/
def Todo.uncomplete (t : Todo) : Todo :=
  { t with completed := false, completion_date := none }

/-- `Todo::with_priority`. -/
def Todo.with_priority (t : Todo) (p : Priority) : Todo :=
  { t with priority := some p }

/-- `Todo::with_creation_date`. -/
def Todo.with_creation_date (t : Todo) (d : Date) : Todo :=
  { t with creation_date := some d }

/-- `Todo::add_context`: append unless already present. -/
def Todo.add_context (t : Todo) (ctx : List Char) : Todo :=
  if t.contexts.contains ctx then t
  else { t with contexts := t.contexts ++ [ctx] }

/-- `Todo::add_project`: append unless already present. -/
def Todo.add_project (t : Todo) (proj : List Char) : Todo :=
  if t.projects.contains proj then t
  else { t with projects := t.projects ++ [proj] }

/-- `Todo::add_tag`. -/
def Todo.add_tag (t : Todo) (k v : List Char) : Todo :=
  { t with tags := tagsInsert k v t.tags }

/-- `Todo::has_context`. -/
def Todo.has_context (t : Todo) (ctx : List Char) : Bool := t.contexts.contains ctx

/-- `Todo::has_project`. -/
def Todo.has_project (t : Todo) (proj : List Char) : Bool := t.projects.contains proj

/-- `Todo::get_tag`. -/
def Todo.get_tag (t : Todo) (k : List Char) : Option (List Char) := tagsLookup k t.tags

/-- `tags.iter().collect::<Vec<_>>()` followed by `sort_by_key(|(k, _)| *k)`:
a stable ascending sort of the tag entries by key. -/
def sortTags (tags : List (List Char × List Char)) : List (List Char × List Char) :=
  tags.insertionSort (fun a b => lexLe a.1 b.1 = true)

/-- `impl fmt::Display for Todo` (the Line Serializer). -/
def Todo.render (t : Todo) : List Char :=
  (if t.completed then
    ['x'] ++
    (match t.completion_date with | some d => ' ' :: renderDate d | none => []) ++
    (match t.creation_date with | some d => ' ' :: renderDate d | none => []) ++ [' ']
   else
    (match t.priority with | some p => renderPriority p ++ [' '] | none => []) ++
    (match t.creation_date with | some d => renderDate d ++ [' '] | none => []))
  ++ t.description
  ++ (t.projects.map (fun p => ' ' :: '+' :: p)).flatten
  ++ (t.contexts.map (fun c => ' ' :: '@' :: c)).flatten
  ++ ((sortTags t.tags).map (fun kv => ' ' :: (kv.1 ++ ':' :: kv.2))).flatten

/-! ## `parse_todo` (src/parser.rs) -/

/-- Rust `str::split_once(':')` under the guard `s.contains(':')`:
the prefix before the first `':'` and the remainder after it. -/
def splitOnceColon (w : List Char) : List Char × List Char :=
  (w.takeWhile (fun c => c != ':'), (w.dropWhile (fun c => c != ':')).tail)

/-- The context-token test of the classification loop:
`part.starts_with('@') && part.len() > 1`. -/
def isCtxTok (w : List Char) : Bool :=
  w.head? == some '@' && decide (1 < strByteLen w)

/-- The project-token test: `part.starts_with('+') && part.len() > 1`. -/
def isProjTok (w : List Char) : Bool :=
  w.head? == some '+' && decide (1 < strByteLen w)

/-- The tag-token test: contains `':'`, and splitting at the first `':'`
yields a nonempty whitespace-free key and value. -/
def isTagTok (w : List Char) : Bool :=
  w.contains ':' &&
  (let kv := splitOnceColon w
   decide (kv.1 ≠ []) && decide (kv.2 ≠ []) && noWs kv.1 && noWs kv.2)

/-- Accumulated output of the token-classification loop. -/
structure ParseAcc where
  descParts : List (List Char)
  contexts : List (List Char)
  projects : List (List Char)
  tags : List (List Char × List Char)
deriving DecidableEq

/-- One iteration of the classification loop of `parse_todo` (the
`for part in parts` body): contexts first, then projects, then tags, and
everything else is a description word. -/
def classifyStep (st : ParseAcc) (w : List Char) : ParseAcc :=
  if isCtxTok w then { st with contexts := st.contexts ++ [w.tail] }
  else if isProjTok w then { st with projects := st.projects ++ [w.tail] }
  else if isTagTok w then
    { st with tags := tagsInsert (splitOnceColon w).1 (splitOnceColon w).2 st.tags }
  else { st with descParts := st.descParts ++ [w] }

/-- The whole classification loop. -/
def classifyTokens (toks : List (List Char)) : ParseAcc :=
  toks.foldl classifyStep (ParseAcc.mk [] [] [] [])

/-- The completion-marker stage of `parse_todo`: consume a leading `"x"`
token and, when present, a following token that parses as a date
(the completion date).  Returns the completed flag, the completion date,
and the unconsumed tokens. -/
def parseCompletionStage (parts : List (List Char)) :
    Bool × Option Date × List (List Char) :=
  match parts with
  | w :: rest =>
    if w = ['x'] then
      match rest with
      | dtok :: rest2 =>
        match parse_date dtok with
        | some dt => (true, some dt, rest2)
        | none => (true, none, rest)
      | [] => (true, none, [])
    else (false, none, parts)
  | [] => (false, none, parts)

/-- The priority stage of `parse_todo`: only for uncompleted tasks, consume
the next token when it has byte length 3, is parenthesised, and parses as a
`Priority`; a priority-shaped token that fails to validate is left
unconsumed. -/
def parsePriorityStage (completed : Bool) (parts : List (List Char)) :
    Option Priority × List (List Char) :=
  if completed then (none, parts)
  else
    match parts with
    | w :: rest =>
      if w.head? == some '(' && w.getLast? == some ')' && strByteLen w == 3 then
        match priorityFromStr w with
        | Except.ok p => (some p, rest)
        | Except.error _ => (none, parts)
      else (none, parts)
    | [] => (none, parts)

/-- The creation-date stage of `parse_todo`: consume the next token when it
parses as a date. -/
def parseCreationStage (parts : List (List Char)) :
    Option Date × List (List Char) :=
  match parts with
  | w :: rest =>
    match parse_date w with
    | some dt => (some dt, rest)
    | none => (none, parts)
  | [] => (none, parts)

/-- `parse_todo` of src/parser.rs (the Line Parser). -/
def parse_todo (line : List Char) : Except TodoError Todo :=
  let line1 := trim line
  if line1 = [] then Except.error (TodoError.ParseError msgEmptyLine)
  else
    let s1 := parseCompletionStage (splitWhitespace line1)
    let s2 := parsePriorityStage s1.1 s1.2.2
    let s3 := parseCreationStage s2.2
    let acc := classifyTokens s3.2
    let desc := joinSep acc.descParts
    if desc = [] ∧ acc.contexts = [] ∧ acc.projects = [] then
      Except.error (TodoError.ParseError msgEmptyTask)
    else
      Except.ok
        { completed := s1.1, priority := s2.1, completion_date := s1.2.1,
          creation_date := s3.1, description := desc,
          contexts := acc.contexts, projects := acc.projects, tags := acc.tags }

/-! ## `TodoList` (src/list.rs) -/

/-- `TodoList`. -/
structure TodoList where
  todos : List Todo
deriving DecidableEq

/-- `TodoList::new`. -/
def TodoList.new : TodoList := TodoList.mk []

/-- `TodoList::add`. -/
def TodoList.add (l : TodoList) (t : Todo) : TodoList := TodoList.mk (l.todos ++ [t])

/-- `TodoList::len`. -/
def TodoList.len (l : TodoList) : Nat := l.todos.length

/-- `TodoList::get`. -/
def TodoList.get (l : TodoList) (i : Nat) : Option Todo := l.todos.get? i

/-- `TodoList::remove`: in-place removal modelled as returning both the
`Result` and the list afterwards (unchanged when out of bounds). -/
def TodoList.remove (l : TodoList) (i : Nat) : Except TodoError Todo × TodoList :=
  if i < l.todos.length then
    (Except.ok (l.todos.getD i (Todo.new [])), TodoList.mk (l.todos.eraseIdx i))
  else (Except.error (TodoError.IndexOutOfBounds i), l)

/-- `TodoList::from_string`: parse each line, skipping blank lines and
(with only a diagnostic print, elided here) lines that fail to parse.
Always returns `Ok`. -/
def TodoList.from_string (content : List Char) : Except TodoError TodoList :=
  Except.ok
    (TodoList.mk
      ((rustLines content).foldl
        (fun acc l =>
          let l1 := trim l
          if l1 = [] then acc
          else
            match parse_todo l1 with
            | Except.ok td => acc ++ [td]
            | Except.error _ => acc)
        []))

/-! ## Derived definitions used to state the claims -/

/-- Decidable equality on `Except` results. -/
instance {ε α : Type} [DecidableEq ε] [DecidableEq α] : DecidableEq (Except ε α) := fun x y =>
  match x, y with
  | Except.ok a, Except.ok b =>
    if h : a = b then isTrue (by rw [h]) else isFalse (by intro hh; cases hh; exact h rfl)
  | Except.error a, Except.error b =>
    if h : a = b then isTrue (by rw [h]) else isFalse (by intro hh; cases hh; exact h rfl)
  | Except.ok _, Except.error _ => isFalse (by intro hh; cases hh)
  | Except.error _, Except.ok _ => isFalse (by intro hh; cases hh)

/-- All characters are ASCII digits. -/
def allDigits (s : List Char) : Bool := s.all Char.isDigit

/-- The date grammar actually consumed by the line parser, stated
independently of the scanning algorithm: hyphen-split groups of digits —
a year group of 1 to 4 digits (any nonempty length after an explicit
sign), a month group of 1 or 2 digits and a day group of 1 or 2 digits —
forming a calendar-valid date.  `capped` marks the unsigned-year case. -/
def dateFromGroups (sign : Int) (capped : Bool) (r : List Char) : Option Date :=
  match splitOnChar '-' r with
  | [ys, ms, ds] =>
    if ys ≠ [] ∧ allDigits ys = true ∧ (capped → ys.length ≤ 4) ∧
       ms ≠ [] ∧ allDigits ms = true ∧ ms.length ≤ 2 ∧
       ds ≠ [] ∧ allDigits ds = true ∧ ds.length ≤ 2 then
      from_ymd_opt (sign * (digitsVal ys : Int)) (digitsVal ms) (digitsVal ds)
    else none
  | _ => none

/-- The lenient date-token grammar of `%Y-%m-%d` (specification shape,
compared against `parse_date` in the development): an optional sign
followed by digit groups as in `dateFromGroups`. -/
def dateTokenSpec (s : List Char) : Option Date :=
  match s with
  | '-' :: r => dateFromGroups (-1) false r
  | '+' :: r => dateFromGroups 1 false r
  | r => dateFromGroups 1 true r

/-- The exact `YYYY-MM-DD` shape the specification describes: 4-digit
year, 2-digit month, 2-digit day. -/
def isExactDateShape (s : List Char) : Bool :=
  match s with
  | [y1, y2, y3, y4, h1, m1, m2, h2, d1, d2] =>
    y1.isDigit && y2.isDigit && y3.isDigit && y4.isDigit && h1 == '-' &&
    m1.isDigit && m2.isDigit && h2 == '-' && d1.isDigit && d2.isDigit
  | _ => false

/-- The description words of a record, by Rust `split_whitespace`. -/
def descWords (t : Todo) : List (List Char) := splitWhitespace t.description

/-- The serialized context tokens. -/
def ctxToks (t : Todo) : List (List Char) := t.contexts.map (fun c => '@' :: c)

/-- The serialized project tokens. -/
def projToks (t : Todo) : List (List Char) := t.projects.map (fun p => '+' :: p)

/-- The serialized tag tokens, sorted by key as the serializer emits them. -/
def tagToks (t : Todo) : List (List Char) := (sortTags t.tags).map (fun kv => kv.1 ++ ':' :: kv.2)

/-- The serialized tokens after the priority/creation-date prefix. -/
def remToks (t : Todo) : List (List Char) :=
  descWords t ++ projToks t ++ ctxToks t ++ tagToks t

/-- `true` when the priority stage of the line parser would consume this
token: parenthesised byte-length-3 shape and a valid interior letter. -/
def prioConsumable (w : List Char) : Bool :=
  (w.head? == some '(' && w.getLast? == some ')' && strByteLen w == 3) &&
  (match priorityFromStr w with | Except.ok _ => true | Except.error _ => false)

/-- Well-formedness of an (uncompleted) task record under which
serialisation is injective enough to round-trip.  The first block records
invariants the Rust types already guarantee (`Priority` letters are A–Z,
`NaiveDate`s are valid, `HashMap` keys are unique); the remaining fields
require the free-form string fields to be token-shaped: a normalized
description whose words are not structural tokens, nonempty
whitespace-free contexts/projects, tag keys and values that re-parse as
the same tag, at least one description/context/project token, and a first
remaining token that the completion/priority/date stages do not steal. -/
structure RenderSafe (t : Todo) : Prop where
  prioOk : (match t.priority with
            | some p => decide ('A' ≤ p.c) && decide (p.c ≤ 'Z')
            | none => true) = true
  cdateOk : (match t.creation_date with
             | some d => dateValid d.year d.month d.day
             | none => true) = true
  tagKeysNodup : (t.tags.map Prod.fst).Nodup
  descNorm : t.description = joinSep (splitWhitespace t.description)
  descNoTok : (splitWhitespace t.description).all
    (fun w => !isCtxTok w && !isProjTok w && !isTagTok w) = true
  ctxOk : t.contexts.all (fun c => !c.isEmpty && noWs c) = true
  projOk : t.projects.all (fun p => !p.isEmpty && noWs p) = true
  tagOk : t.tags.all
    (fun kv => !kv.1.isEmpty && !kv.2.isEmpty && noWs kv.1 && noWs kv.2 &&
       !kv.1.contains ':' && !(kv.1.head? == some '@') && !(kv.1.head? == some '+')) = true
  content : splitWhitespace t.description ≠ [] ∨ t.contexts ≠ [] ∨ t.projects ≠ []
  headDate : (match t.creation_date, (remToks t).head? with
              | none, some w => parse_date w == none
              | _, _ => true) = true
  headMarker : (match t.priority, t.creation_date, (remToks t).head? with
                | none, none, some w => !(w == ['x']) && !prioConsumable w
                | _, _, _ => true) = true

/-- The per-line treatment of `TodoList::from_string`: `none` for blank or
unparseable lines, otherwise the parsed record. -/
def lineOk (l : List Char) : Option Todo :=
  let l1 := trim l
  if l1 = [] then none
  else
    match parse_todo l1 with
    | Except.ok td => some td
    | Except.error _ => none

/-- The context label a token contributes during classification. -/
def ctxOfTok (w : List Char) : Option (List Char) :=
  if isCtxTok w then some w.tail else none

/-- The project label a token contributes during classification. -/
def projOfTok (w : List Char) : Option (List Char) :=
  if isProjTok w then some w.tail else none

/-- The tokens of a line still unconsumed when the classification loop of
`parse_todo` starts (after the completion, priority and creation-date
stages). -/
def remainderTokens (s : List Char) : List (List Char) :=
  (parseCreationStage
    (parsePriorityStage (parseCompletionStage (splitWhitespace (trim s))).1
      (parseCompletionStage (splitWhitespace (trim s))).2.2).2).2

/-- The classification-loop output for a line. -/
def extractedAcc (s : List Char) : ParseAcc := classifyTokens (remainderTokens s)

/-! ## Lemmas: whitespace splitting -/

theorem noWs_iff {s : List Char} :
    noWs s = true ↔ ∀ c ∈ s, rustWhitespace c = false := by
  simp [noWs, List.all_eq_true]

theorem splitWsAux_all_ws (t : List Char) (h : ∀ c ∈ t, rustWhitespace c = true) :
    ∀ acc, splitWsAux t acc = if acc = [] then [] else [acc.reverse] := by
  induction t with
  | nil => intro acc; rfl
  | cons c cs ih =>
    intro acc
    have hc : rustWhitespace c = true := h c (by simp)
    have ih' := ih (fun x hx => h x (by simp [hx]))
    by_cases ha : acc = [] <;> simp [splitWsAux, hc, ha, ih' []]

theorem splitWsAux_ne_nil (s : List Char) :
    ∀ acc, acc ≠ [] → splitWsAux s acc ≠ [] := by
  induction s with
  | nil => intro acc ha; simp [splitWsAux, ha]
  | cons c cs ih =>
    intro acc ha
    by_cases hw : rustWhitespace c
    · simp [splitWsAux, hw, ha]
    · simpa [splitWsAux, hw] using ih (c :: acc) (by simp)

theorem splitWsAux_append_space (xs ys : List Char) :
    ∀ acc, splitWsAux (xs ++ ' ' :: ys) acc = splitWsAux xs acc ++ splitWsAux ys [] := by
  induction xs with
  | nil =>
    intro acc
    have hsp : rustWhitespace ' ' = true := by decide
    by_cases ha : acc = [] <;> simp [splitWsAux, hsp, ha]
  | cons c cs ih =>
    intro acc
    by_cases hw : rustWhitespace c
    · by_cases ha : acc = [] <;> simp [splitWsAux, hw, ha, ih]
    · simp [splitWsAux, hw, ih]

theorem splitWs_append_space (xs ys : List Char) :
    splitWhitespace (xs ++ ' ' :: ys) = splitWhitespace xs ++ splitWhitespace ys :=
  splitWsAux_append_space xs ys []

theorem splitWsAux_no_ws (w : List Char) (h : ∀ c ∈ w, rustWhitespace c = false) :
    ∀ acc, acc ≠ [] ∨ w ≠ [] → splitWsAux w acc = [acc.reverse ++ w] := by
  induction w with
  | nil =>
    intro acc hne
    have ha : acc ≠ [] := by rcases hne with h' | h'; exact h'; exact absurd rfl h'
    simp [splitWsAux, ha]
  | cons c cs ih =>
    intro acc _
    have hc : rustWhitespace c = false := h c (by simp)
    have := ih (fun x hx => h x (by simp [hx])) (c :: acc) (by simp)
    simp [splitWsAux, hc, this]

theorem splitWs_single (w : List Char) (hne : w ≠ []) (hws : noWs w = true) :
    splitWhitespace w = [w] := by
  have := splitWsAux_no_ws w (noWs_iff.mp hws) [] (Or.inr hne)
  simpa [splitWhitespace] using this

theorem splitWs_pre_toks (toks : List (List Char))
    (h : ∀ w ∈ toks, w ≠ [] ∧ noWs w = true) :
    ∀ pre, splitWhitespace (pre ++ (toks.map (fun w => ' ' :: w)).flatten) =
      splitWhitespace pre ++ toks := by
  induction toks with
  | nil => intro pre; simp
  | cons w ts ih =>
    intro pre
    have hw := h w (by simp)
    have hts : ∀ x ∈ ts, x ≠ [] ∧ noWs x = true := fun x hx => h x (by simp [hx])
    have step : pre ++ ((w :: ts).map (fun v => ' ' :: v)).flatten =
        pre ++ ' ' :: (w ++ (ts.map (fun v => ' ' :: v)).flatten) := by simp
    rw [step, splitWs_append_space, ih hts w]
    rw [splitWs_single w hw.1 hw.2]
    simp

theorem splitWsAux_append_ws_right (s t : List Char)
    (h : ∀ c ∈ t, rustWhitespace c = true) :
    ∀ acc, splitWsAux (s ++ t) acc = splitWsAux s acc := by
  induction s with
  | nil =>
    intro acc
    simp only [List.nil_append]
    rw [splitWsAux_all_ws t h acc]; rfl
  | cons c cs ih =>
    intro acc
    by_cases hw : rustWhitespace c
    · by_cases ha : acc = [] <;> simp [splitWsAux, hw, ha, ih]
    · simp [splitWsAux, hw, ih]

theorem splitWs_dropWhile (s : List Char) :
    splitWhitespace (s.dropWhile rustWhitespace) = splitWhitespace s := by
  induction s with
  | nil => rfl
  | cons c cs ih =>
    by_cases hw : rustWhitespace c
    · simpa [List.dropWhile, hw, splitWhitespace, splitWsAux] using ih
    · simp [List.dropWhile, hw]

theorem splitWs_trim (s : List Char) : splitWhitespace (trim s) = splitWhitespace s := by
  set v := s.dropWhile rustWhitespace with hv
  have hsplit : v = (v.reverse.dropWhile rustWhitespace).reverse ++
      (v.reverse.takeWhile rustWhitespace).reverse := by
    conv_lhs => rw [← List.reverse_reverse v,
      ← List.takeWhile_append_dropWhile rustWhitespace v.reverse]
    rw [List.reverse_append]
  have hws : ∀ c ∈ (v.reverse.takeWhile rustWhitespace).reverse, rustWhitespace c = true := by
    intro c hc
    exact List.mem_takeWhile_imp (by simpa using hc)
  have h1 : splitWhitespace v = splitWhitespace (trim s) := by
    conv_lhs => rw [hsplit]
    exact splitWsAux_append_ws_right _ _ hws []
  rw [← h1, hv, splitWs_dropWhile]

theorem trim_nil_split (s : List Char) (h : trim s = []) : splitWhitespace s = [] := by
  rw [← splitWs_trim, h]; rfl

theorem splitWs_ne_nil_of_head (c : Char) (cs : List Char) (h : rustWhitespace c = false) :
    splitWhitespace (c :: cs) ≠ [] := by
  simp only [splitWhitespace, splitWsAux, h]
  exact splitWsAux_ne_nil cs [c] (by simp)

/-! ## Lemmas: characters, digits and scanning -/

theorem length_le_strByteLen (s : List Char) : s.length ≤ strByteLen s := by
  induction s with
  | nil => simp [strByteLen]
  | cons c cs ih =>
    have := Char.utf8Size_pos c
    simp only [strByteLen, List.map_cons, List.sum_cons, List.length_cons] at *
    omega

theorem strByteLen_cons (c : Char) (cs : List Char) :
    strByteLen (c :: cs) = c.utf8Size + strByteLen cs := by
  simp [strByteLen]

theorem utf8Size_ascii (c : Char) (h : c.toNat < 128) : c.utf8Size = 1 := by
  unfold Char.utf8Size
  simp only []
  rw [if_pos]
  rw [UInt32.le_def, BitVec.le_def]
  show c.val.toNat ≤ 127
  have hh : c.toNat = c.val.toNat := rfl
  omega

theorem upper_toNat (c : Char) (h1 : 'A' ≤ c) (h2 : c ≤ 'Z') :
    65 ≤ c.toNat ∧ c.toNat ≤ 90 := by
  rw [Char.le_def] at h1 h2
  rw [UInt32.le_def, BitVec.le_def] at h1 h2
  have hh : c.toNat = c.val.toBitVec.toNat := rfl
  have h65 : ('A').val.toBitVec.toNat = 65 := rfl
  have h90 : ('Z').val.toBitVec.toNat = 90 := rfl
  omega

theorem digitChar_props (n : Nat) :
    (digitChar n).isDigit = true ∧ rustWhitespace (digitChar n) = false ∧
    (digitChar n).toNat = 48 + n % 10 ∧ (digitChar n).utf8Size = 1 ∧
    digitChar n ≠ '-' ∧ digitChar n ≠ '+' ∧ digitChar n ≠ 'x' ∧
    digitChar n ≠ '(' ∧ digitChar n ≠ '@' := by
  show (Char.ofNat (48 + n % 10)).isDigit = true ∧
    rustWhitespace (Char.ofNat (48 + n % 10)) = false ∧
    (Char.ofNat (48 + n % 10)).toNat = 48 + n % 10 ∧
    (Char.ofNat (48 + n % 10)).utf8Size = 1 ∧
    Char.ofNat (48 + n % 10) ≠ '-' ∧ Char.ofNat (48 + n % 10) ≠ '+' ∧
    Char.ofNat (48 + n % 10) ≠ 'x' ∧ Char.ofNat (48 + n % 10) ≠ '(' ∧
    Char.ofNat (48 + n % 10) ≠ '@'
  have h : n % 10 < 10 := Nat.mod_lt _ (by norm_num)
  revert h
  generalize n % 10 = m
  intro h
  interval_cases m <;> exact ⟨by decide, by decide, by decide, by decide,
    by decide, by decide, by decide, by decide, by decide⟩

theorem isDigit_toNat (c : Char) (h : c.isDigit = true) :
    48 ≤ c.toNat ∧ c.toNat ≤ 57 := by
  have h1 : ('0' ≤ c && c ≤ '9') = true := h
  rw [Bool.and_eq_true, decide_eq_true_eq, decide_eq_true_eq] at h1
  obtain ⟨ha, hb⟩ := h1
  rw [Char.le_def] at ha hb
  rw [UInt32.le_def, BitVec.le_def] at ha hb
  have hh : c.toNat = c.val.toBitVec.toNat := rfl
  have h48 : ('0').val.toBitVec.toNat = 48 := rfl
  have h57 : ('9').val.toBitVec.toNat = 57 := rfl
  omega

theorem isDigit_not_ws (c : Char) (h : c.isDigit = true) :
    rustWhitespace c = false := by
  obtain ⟨h1, h2⟩ := isDigit_toNat c h
  simp only [rustWhitespace, Bool.or_eq_false_iff, Bool.and_eq_false_iff,
    decide_eq_false_iff_not, beq_eq_false_iff_ne, ne_eq]
  omega

theorem isDigit_ne (c : Char) (h : c.isDigit = true) :
    c ≠ '-' ∧ c ≠ '+' ∧ c ≠ 'x' ∧ c ≠ '(' ∧ c ≠ '@' ∧ c ≠ ':' := by
  obtain ⟨h1, h2⟩ := isDigit_toNat c h
  refine ⟨?_, ?_, ?_, ?_, ?_, ?_⟩ <;> intro hh <;> subst hh <;> revert h1 h2 <;> decide

theorem takeWhile_append_all (p : Char → Bool) (xs ys : List Char)
    (h : ∀ c ∈ xs, p c = true) :
    (xs ++ ys).takeWhile p = xs ++ ys.takeWhile p := by
  induction xs with
  | nil => simp
  | cons c cs ih =>
    have hc := h c (by simp)
    simp [List.takeWhile, hc, ih (fun x hx => h x (by simp [hx]))]

theorem digitsVal_append_one (xs : List Char) (c : Char) :
    digitsVal (xs ++ [c]) = digitsVal xs * 10 + (c.toNat - 48) := by
  simp [digitsVal, List.foldl_append]

theorem scanNumber_exact (max : Nat) (ds rest : List Char) (hne : ds ≠ [])
    (hdig : ∀ c ∈ ds, c.isDigit = true) (hcap : ds.length ≤ max)
    (hstop : ds.length = max ∨ rest.takeWhile Char.isDigit = []) :
    scanNumber max (ds ++ rest) = some (digitsVal ds, rest) := by
  have htw : (ds ++ rest).takeWhile Char.isDigit = ds ++ rest.takeWhile Char.isDigit :=
    takeWhile_append_all _ ds rest hdig
  have htake : ((ds ++ rest).takeWhile Char.isDigit).take max = ds := by
    rw [htw]
    rcases hstop with h | h
    · rw [← h]; exact List.take_left ds _
    · rw [h, List.append_nil]; exact List.take_of_length_le hcap
  have hdrop : (ds ++ rest).drop ds.length = rest := List.drop_left ds rest
  simp only [scanNumber, htake, hdrop]
  simp [hne]

theorem digitsVal_pad4 (n : Nat) (h : n < 10000) : digitsVal (pad4 n) = n := by
  have h3 := (digitChar_props (n / 1000)).2.2.1
  have h2 := (digitChar_props (n / 100)).2.2.1
  have h1 := (digitChar_props (n / 10)).2.2.1
  have h0 := (digitChar_props n).2.2.1
  simp only [pad4, digitsVal, List.foldl_cons, List.foldl_nil, h3, h2, h1, h0]
  omega

theorem digitsVal_pad2 (n : Nat) (h : n < 100) : digitsVal (pad2 n) = n := by
  have h1 := (digitChar_props (n / 10)).2.2.1
  have h0 := (digitChar_props n).2.2.1
  simp only [pad2, digitsVal, List.foldl_cons, List.foldl_nil, h1, h0]
  omega

theorem pad4_digits (n : Nat) : ∀ c ∈ pad4 n, c.isDigit = true := by
  intro c hc
  simp only [pad4, List.mem_cons, List.mem_singleton, List.not_mem_nil] at hc
  rcases hc with rfl | rfl | rfl | rfl | h
  · exact (digitChar_props _).1
  · exact (digitChar_props _).1
  · exact (digitChar_props _).1
  · exact (digitChar_props _).1
  · cases h

theorem pad2_digits (n : Nat) : ∀ c ∈ pad2 n, c.isDigit = true := by
  intro c hc
  simp only [pad2, List.mem_cons, List.mem_singleton, List.not_mem_nil] at hc
  rcases hc with rfl | rfl | h
  · exact (digitChar_props _).1
  · exact (digitChar_props _).1
  · cases h

theorem natDigitsGo_spec : ∀ fuel n, n < fuel →
    (natDigitsGo fuel n ≠ [] ∧ (∀ c ∈ natDigitsGo fuel n, c.isDigit = true) ∧
     digitsVal (natDigitsGo fuel n) = n) := by
  intro fuel
  induction fuel with
  | zero => intro n hn; omega
  | succ f ih =>
    intro n hn
    by_cases h10 : n < 10
    · refine ⟨by simp [natDigitsGo, h10], ?_, ?_⟩
      · intro c hc
        simp [natDigitsGo, h10] at hc
        subst hc; exact (digitChar_props n).1
      · have hd := (digitChar_props n).2.2.1
        simp only [natDigitsGo, h10, if_true, digitsVal, List.foldl_cons,
          List.foldl_nil, hd]
        omega
    · have hdiv : n / 10 < f := by
        have hlt : n / 10 < n := Nat.div_lt_self (by omega) (by norm_num)
        omega
      obtain ⟨ihne, ihdig, ihval⟩ := ih (n / 10) hdiv
      refine ⟨by simp [natDigitsGo, h10], ?_, ?_⟩
      · intro c hc
        simp only [natDigitsGo, h10, if_false, List.mem_append,
          List.mem_singleton] at hc
        rcases hc with hc | rfl
        · exact ihdig c hc
        · exact (digitChar_props n).1
      · have hlast := (digitChar_props n).2.2.1
        simp only [natDigitsGo, h10, if_false, digitsVal_append_one, ihval, hlast]
        omega

theorem natDigits_spec (n : Nat) :
    natDigits n ≠ [] ∧ (∀ c ∈ natDigits n, c.isDigit = true) ∧
    digitsVal (natDigits n) = n :=
  natDigitsGo_spec (n + 1) n (by omega)

/-! ## Lemmas: date parsing and rendering -/

theorem dropWhile_not_ws (c : Char) (cs : List Char) (h : rustWhitespace c = false) :
    (c :: cs).dropWhile rustWhitespace = c :: cs := by
  simp [List.dropWhile, h]

theorem takeWhile_nil_of_head (p : Char → Bool) (c : Char) (cs : List Char)
    (h : p c = false) : (c :: cs).takeWhile p = [] := by
  simp [List.takeWhile, h]

theorem rustWhitespace_eq_false_of (c : Char) (h1 : 32 < c.toNat) (h2 : c.toNat < 133) :
    rustWhitespace c = false := by
  simp only [rustWhitespace, Bool.or_eq_false_iff, Bool.and_eq_false_iff,
    decide_eq_false_iff_not, beq_eq_false_iff_ne, ne_eq]
  omega

theorem parseYearField_cons (c : Char) (rest : List Char)
    (hws : rustWhitespace c = false) (h1 : c ≠ '-') (h2 : c ≠ '+') :
    parseYearField (c :: rest) =
      (scanNumber 4 (c :: rest)).map (fun p => ((p.1 : Int), p.2)) := by
  unfold parseYearField
  rw [dropWhile_not_ws c rest hws]
  split
  · next r heq => exact absurd (List.head_eq_of_cons_eq heq) h1
  · next r heq => exact absurd (List.head_eq_of_cons_eq heq) h2
  · rfl

theorem parseYearField_neg (r : List Char) :
    parseYearField ('-' :: r) =
      (scanNumber r.length r).map (fun p => (-(p.1 : Int), p.2)) := rfl

theorem parseYearField_pos (r : List Char) :
    parseYearField ('+' :: r) =
      (scanNumber r.length r).map (fun p => ((p.1 : Int), p.2)) := rfl

theorem parseNumField_cons (max : Nat) (c : Char) (rest : List Char)
    (hws : rustWhitespace c = false) :
    parseNumField max (c :: rest) = scanNumber max (c :: rest) := by
  unfold parseNumField
  rw [dropWhile_not_ws c rest hws]

theorem daysInMonth_le (y : Int) (m : Nat) : daysInMonth y m ≤ 31 := by
  unfold daysInMonth
  split
  · split <;> omega
  · split <;> omega

theorem dateValid_bounds (y : Int) (m d : Nat) (h : dateValid y m d = true) :
    1 ≤ m ∧ m ≤ 12 ∧ 1 ≤ d ∧ d ≤ 31 ∧ -262144 ≤ y ∧ y ≤ 262143 := by
  have hd31 := daysInMonth_le y m
  simp only [dateValid, Bool.and_eq_true, decide_eq_true_eq] at h
  omega

theorem pad4_cons (n : Nat) : ∃ c rest, pad4 n = c :: rest ∧ c.isDigit = true := by
  exact ⟨digitChar (n / 1000), _, rfl, (digitChar_props _).1⟩

theorem parseYearField_renderYear (y : Int) (h1 : -262144 ≤ y) (h2 : y ≤ 262143)
    (tail : List Char) :
    parseYearField (renderYear y ++ '-' :: tail) = some (y, '-' :: tail) := by
  have hdashdig : ('-').isDigit = false := by decide
  have htw : ('-' :: tail).takeWhile Char.isDigit = [] :=
    takeWhile_nil_of_head _ _ _ hdashdig
  by_cases hy0 : 0 ≤ y ∧ y < 10000
  · -- unsigned 4-digit case
    have hy4 : y.toNat < 10000 := by omega
    have hdig := pad4_digits y.toNat
    have hlen : (pad4 y.toNat).length = 4 := by simp [pad4]
    have hshape : renderYear y ++ '-' :: tail =
        digitChar (y.toNat / 1000) ::
          ([digitChar (y.toNat / 100), digitChar (y.toNat / 10), digitChar y.toNat]
            ++ '-' :: tail) := by
      simp [renderYear, hy0, pad4]
    rw [hshape]
    have hhd := digitChar_props (y.toNat / 1000)
    rw [parseYearField_cons _ _ hhd.2.1 hhd.2.2.2.2.1 hhd.2.2.2.2.2.1]
    have hback : digitChar (y.toNat / 1000) ::
        ([digitChar (y.toNat / 100), digitChar (y.toNat / 10), digitChar y.toNat]
          ++ '-' :: tail) = pad4 y.toNat ++ '-' :: tail := by
      simp [pad4]
    rw [hback]
    rw [scanNumber_exact 4 (pad4 y.toNat) ('-' :: tail) (by simp [pad4]) hdig
      (by rw [hlen]) (Or.inl hlen)]
    simp [digitsVal_pad4 y.toNat hy4]
    omega
  · by_cases hyneg : y < 0
    · -- negative year: explicit sign then digits
      have hwsdash : rustWhitespace '-' = false := by decide
      have hshape : renderYear y ++ '-' :: tail =
          '-' :: ((if -y < 10000 then pad4 (-y).toNat else natDigits (-y).toNat)
            ++ '-' :: tail) := by
        have : ¬ (0 ≤ y ∧ y < 10000) := hy0
        simp [renderYear, this, hyneg]
      rw [hshape, parseYearField_neg]
      by_cases hsmall : -y < 10000
      · have hv : (-y).toNat < 10000 := by omega
        have hdig := pad4_digits (-y).toNat
        have hlen : (pad4 (-y).toNat).length = 4 := by simp [pad4]
        rw [if_pos hsmall]
        rw [scanNumber_exact _ (pad4 (-y).toNat) ('-' :: tail) (by simp [pad4]) hdig
          (by simp) (Or.inr htw)]
        simp [digitsVal_pad4 (-y).toNat hv]
        omega
      · obtain ⟨hne, hdig, hval⟩ := natDigits_spec (-y).toNat
        rw [if_neg hsmall]
        rw [scanNumber_exact _ (natDigits (-y).toNat) ('-' :: tail) hne hdig
          (by simp) (Or.inr htw)]
        simp [hval]
        omega
    · -- y ≥ 10000: explicit plus sign then digits
      have hbig : 10000 ≤ y := by omega
      have hshape : renderYear y ++ '-' :: tail =
          '+' :: (natDigits y.toNat ++ '-' :: tail) := by
        have hno : ¬ (0 ≤ y ∧ y < 10000) := hy0
        have hynn : ¬ y < 0 := by omega
        simp [renderYear, hno, hynn]
      rw [hshape, parseYearField_pos]
      obtain ⟨hne, hdig, hval⟩ := natDigits_spec y.toNat
      rw [scanNumber_exact _ (natDigits y.toNat) ('-' :: tail) hne hdig
        (by simp) (Or.inr htw)]
      simp [hval]
      omega

theorem scanNumber_pad2 (n : Nat) (hn : n < 100) (rest : List Char) :
    scanNumber 2 (pad2 n ++ rest) = some (n, rest) := by
  have hlen : (pad2 n).length = 2 := by simp [pad2]
  rw [scanNumber_exact 2 (pad2 n) rest (by simp [pad2]) (pad2_digits n)
    (by rw [hlen]) (Or.inl hlen)]
  rw [digitsVal_pad2 n hn]

theorem parse_date_of_stages (s : List Char) (y : Int) (s2 : List Char) (m : Nat)
    (s4 : List Char) (d : Nat)
    (hy : parseYearField s = some (y, '-' :: s2))
    (hm : parseNumField 2 s2 = some (m, '-' :: s4))
    (hd : parseNumField 2 s4 = some (d, [])) :
    parse_date s = from_ymd_opt y m d := by
  unfold parse_date
  simp [hy, hm, hd]

theorem parseNumField_pad2 (n : Nat) (hn : n < 100) (rest : List Char) :
    parseNumField 2 (pad2 n ++ rest) = some (n, rest) := by
  have hhead := digitChar_props (n / 10)
  have hc : pad2 n ++ rest = digitChar (n / 10) :: ([digitChar n] ++ rest) := by
    simp [pad2]
  rw [hc, parseNumField_cons 2 _ _ hhead.2.1, ← hc]
  exact scanNumber_pad2 n hn rest

theorem parse_renderDate (dt : Date) (h : dateValid dt.year dt.month dt.day = true) :
    parse_date (renderDate dt) = some dt := by
  obtain ⟨hm1, hm12, hd1, hd31, hy1, hy2⟩ := dateValid_bounds _ _ _ h
  have hm100 : dt.month < 100 := by omega
  have hd100 : dt.day < 100 := by omega
  have hshape : renderDate dt =
      renderYear dt.year ++ '-' :: (pad2 dt.month ++ '-' :: pad2 dt.day) := by
    simp [renderDate]
  have hy := parseYearField_renderYear dt.year hy1 hy2 (pad2 dt.month ++ '-' :: pad2 dt.day)
  have hm := parseNumField_pad2 dt.month hm100 ('-' :: pad2 dt.day)
  have hd : parseNumField 2 (pad2 dt.day) = some (dt.day, []) := by
    have := parseNumField_pad2 dt.day hd100 []
    rwa [List.append_nil] at this
  rw [hshape, parse_date_of_stages _ dt.year _ dt.month _ dt.day hy hm hd]
  rw [from_ymd_opt, if_pos h]

theorem renderYear_chars (y : Int) :
    ∀ c ∈ renderYear y, c.isDigit = true ∨ c = '-' ∨ c = '+' := by
  intro c hc
  unfold renderYear at hc
  split at hc
  · exact Or.inl (pad4_digits _ c hc)
  · split at hc
    · rcases List.mem_cons.mp hc with rfl | hc2
      · exact Or.inr (Or.inl rfl)
      · split at hc2
        · exact Or.inl (pad4_digits _ c hc2)
        · exact Or.inl ((natDigits_spec _).2.1 c hc2)
    · rcases List.mem_cons.mp hc with rfl | hc2
      · exact Or.inr (Or.inr rfl)
      · exact Or.inl ((natDigits_spec _).2.1 c hc2)

theorem renderDate_chars (dt : Date) :
    ∀ c ∈ renderDate dt, c.isDigit = true ∨ c = '-' ∨ c = '+' := by
  intro c hc
  rw [renderDate] at hc
  rcases List.mem_append.mp hc with h | h
  · rcases List.mem_append.mp h with h | h
    · exact renderYear_chars _ c h
    · rcases List.mem_cons.mp h with rfl | h
      · exact Or.inr (Or.inl rfl)
      · exact Or.inl (pad2_digits _ c h)
  · rcases List.mem_cons.mp h with rfl | h
    · exact Or.inr (Or.inl rfl)
    · exact Or.inl (pad2_digits _ c h)

theorem renderDate_noWs (dt : Date) : noWs (renderDate dt) = true := by
  rw [noWs_iff]
  intro c hc
  rcases renderDate_chars dt c hc with h | rfl | rfl
  · exact isDigit_not_ws c h
  · decide
  · decide

theorem renderYear_ne_nil (y : Int) : renderYear y ≠ [] := by
  unfold renderYear
  split
  · simp [pad4]
  · split <;> simp

theorem renderDate_ne_nil (dt : Date) : renderDate dt ≠ [] := by
  simp only [renderDate]
  intro hcon
  exact absurd (List.append_eq_nil.mp hcon).2 (by simp)

theorem renderDate_head (dt : Date) :
    ∃ c rest, renderDate dt = c :: rest ∧ (c.isDigit = true ∨ c = '-' ∨ c = '+') := by
  obtain ⟨c, rest, hc⟩ := List.exists_cons_of_ne_nil (renderDate_ne_nil dt)
  refine ⟨c, rest, hc, ?_⟩
  exact renderDate_chars dt c (by rw [hc]; simp)

theorem renderDate_head_ne (dt : Date) :
    (renderDate dt).head? ≠ some 'x' ∧ (renderDate dt).head? ≠ some '(' := by
  obtain ⟨c, rest, hc, hshape⟩ := renderDate_head dt
  rw [hc]
  simp only [List.head?_cons, ne_eq, Option.some.injEq]
  rcases hshape with h | rfl | rfl
  · have := isDigit_ne c h
    exact ⟨fun hh => this.2.2.1 hh, fun hh => this.2.2.2.1 hh⟩
  · exact ⟨by decide, by decide⟩
  · exact ⟨by decide, by decide⟩

theorem renderDate_ne_x (dt : Date) : renderDate dt ≠ ['x'] := by
  intro hcon
  have := (renderDate_head_ne dt).1
  rw [hcon] at this
  exact this rfl

/-! ## Lemmas: token classification -/

theorem strByteLen_nil : strByteLen [] = 0 := rfl

theorem strByteLen_pos (s : List Char) (h : s ≠ []) : 0 < strByteLen s := by
  cases s with
  | nil => exact absurd rfl h
  | cons c cs =>
    have := Char.utf8Size_pos c
    rw [strByteLen_cons]
    omega

theorem head?_append_ne_nil (xs ys : List Char) (h : xs ≠ []) :
    (xs ++ ys).head? = xs.head? := by
  cases xs with
  | nil => exact absurd rfl h
  | cons c cs => rfl

theorem noWs_append (xs ys : List Char) (hx : noWs xs = true) (hy : noWs ys = true) :
    noWs (xs ++ ys) = true := by
  rw [noWs_iff] at *
  intro c hc
  rcases List.mem_append.mp hc with h | h
  · exact hx c h
  · exact hy c h

theorem noWs_cons (c : Char) (cs : List Char) (hc : rustWhitespace c = false)
    (hcs : noWs cs = true) : noWs (c :: cs) = true := by
  rw [noWs_iff] at *
  intro x hx
  rcases List.mem_cons.mp hx with rfl | h
  · exact hc
  · exact hcs x h

theorem isCtxTok_cons (c : List Char) (h : c ≠ []) : isCtxTok ('@' :: c) = true := by
  have h1 : strByteLen ('@' :: c) = 1 + strByteLen c := by
    rw [strByteLen_cons]; rfl
  have h2 := strByteLen_pos c h
  simp [isCtxTok, h1]
  omega

theorem isProjTok_cons (p : List Char) (h : p ≠ []) : isProjTok ('+' :: p) = true := by
  have h1 : strByteLen ('+' :: p) = 1 + strByteLen p := by
    rw [strByteLen_cons]; rfl
  have h2 := strByteLen_pos p h
  simp [isProjTok, h1]
  omega

theorem isCtxTok_cons_ne (c : Char) (w : List Char) (h : c ≠ '@') :
    isCtxTok (c :: w) = false := by
  simp [isCtxTok, h]

theorem isProjTok_cons_ne (c : Char) (w : List Char) (h : c ≠ '+') :
    isProjTok (c :: w) = false := by
  simp [isProjTok, h]

theorem dropWhile_append_all (p : Char → Bool) (xs ys : List Char)
    (h : ∀ c ∈ xs, p c = true) :
    (xs ++ ys).dropWhile p = ys.dropWhile p := by
  induction xs with
  | nil => simp
  | cons c cs ih =>
    have hc := h c (by simp)
    simp [List.dropWhile, hc, ih (fun x hx => h x (by simp [hx]))]

theorem splitOnceColon_eq (k v : List Char) (h : ¬ ':' ∈ k) :
    splitOnceColon (k ++ ':' :: v) = (k, v) := by
  have hk : ∀ c ∈ k, (c != ':') = true := by
    intro c hc
    have : c ≠ ':' := fun hcc => h (hcc ▸ hc)
    simpa using this
  unfold splitOnceColon
  rw [takeWhile_append_all _ k _ hk, dropWhile_append_all _ k _ hk]
  simp [List.takeWhile, List.dropWhile]

theorem contains_of_mem (s : List Char) (c : Char) (h : c ∈ s) : s.contains c = true := by
  simpa [List.contains] using h

theorem mem_of_contains (s : List Char) (c : Char) (h : s.contains c = true) : c ∈ s := by
  simpa [List.contains] using h

theorem isTagTok_pair (k v : List Char) (hk : k ≠ []) (hv : v ≠ [])
    (hwk : noWs k = true) (hwv : noWs v = true) (hcol : ¬ ':' ∈ k) :
    isTagTok (k ++ ':' :: v) = true := by
  have hcontains : (k ++ ':' :: v).contains ':' = true :=
    contains_of_mem _ _ (by simp)
  simp only [isTagTok, hcontains, splitOnceColon_eq k v hcol, Bool.true_and]
  simp [hk, hv, hwk, hwv]

theorem isTagTok_false_of_not_contains (w : List Char) (h : ¬ ':' ∈ w) :
    isTagTok w = false := by
  have : w.contains ':' = false := by
    cases hcc : w.contains ':' with
    | false => rfl
    | true => exact absurd (mem_of_contains w ':' hcc) h
  unfold isTagTok
  rw [this, Bool.false_and]

theorem tagsInsert_fresh (k v : List Char) (tags : List (List Char × List Char))
    (h : ¬ k ∈ tags.map Prod.fst) :
    tagsInsert k v tags = tags ++ [(k, v)] := by
  induction tags with
  | nil => rfl
  | cons kv rest ih =>
    have hne : kv.1 ≠ k := by
      intro hh
      exact h (by simp [← hh])
    simp only [tagsInsert, if_neg hne, List.cons_append]
    rw [ih (fun hh => h (by simp [hh]))]

/-! ## Lemmas: the classification loop on shaped token segments -/

theorem classify_desc_seg (ws_ : List (List Char))
    (h : ∀ w ∈ ws_, isCtxTok w = false ∧ isProjTok w = false ∧ isTagTok w = false) :
    ∀ st : ParseAcc, ws_.foldl classifyStep st =
      { st with descParts := st.descParts ++ ws_ } := by
  induction ws_ with
  | nil => intro st; simp
  | cons w rest ih =>
    intro st
    obtain ⟨h1, h2, h3⟩ := h w (by simp)
    have hstep : classifyStep st w = { st with descParts := st.descParts ++ [w] } := by
      simp [classifyStep, h1, h2, h3]
    simp only [List.foldl_cons, hstep]
    rw [ih (fun x hx => h x (by simp [hx]))]
    simp

theorem classify_proj_seg (ps : List (List Char)) (h : ∀ p ∈ ps, p ≠ []) :
    ∀ st : ParseAcc, ((ps.map (fun p => '+' :: p)).foldl classifyStep st) =
      { st with projects := st.projects ++ ps } := by
  induction ps with
  | nil => intro st; simp
  | cons p rest ih =>
    intro st
    have hp := h p (by simp)
    have hstep : classifyStep st ('+' :: p) =
        { st with projects := st.projects ++ [p] } := by
      simp [classifyStep, isCtxTok_cons_ne '+' p (by decide), isProjTok_cons p hp]
    simp only [List.map_cons, List.foldl_cons, hstep]
    rw [ih (fun x hx => h x (by simp [hx]))]
    simp

theorem classify_ctx_seg (cs : List (List Char)) (h : ∀ c ∈ cs, c ≠ []) :
    ∀ st : ParseAcc, ((cs.map (fun c => '@' :: c)).foldl classifyStep st) =
      { st with contexts := st.contexts ++ cs } := by
  induction cs with
  | nil => intro st; simp
  | cons c rest ih =>
    intro st
    have hc := h c (by simp)
    have hstep : classifyStep st ('@' :: c) =
        { st with contexts := st.contexts ++ [c] } := by
      simp [classifyStep, isCtxTok_cons c hc]
    simp only [List.map_cons, List.foldl_cons, hstep]
    rw [ih (fun x hx => h x (by simp [hx]))]
    simp

theorem classify_tag_seg (entries : List (List Char × List Char))
    (h : ∀ kv ∈ entries, kv.1 ≠ [] ∧ kv.2 ≠ [] ∧ noWs kv.1 = true ∧ noWs kv.2 = true ∧
      ¬ ':' ∈ kv.1 ∧ kv.1.head? ≠ some '@' ∧ kv.1.head? ≠ some '+')
    (hnd : (entries.map Prod.fst).Nodup) :
    ∀ st : ParseAcc, (∀ kv ∈ entries, ¬ kv.1 ∈ st.tags.map Prod.fst) →
      ((entries.map (fun kv => kv.1 ++ ':' :: kv.2)).foldl classifyStep st) =
        { st with tags := st.tags ++ entries } := by
  induction entries with
  | nil => intro st _; simp
  | cons kv rest ih =>
    intro st hdisj
    obtain ⟨hk, hv, hwk, hwv, hcol, hhd1, hhd2⟩ := h kv (by simp)
    have hctx : isCtxTok (kv.1 ++ ':' :: kv.2) = false := by
      obtain ⟨c, cs, hc⟩ := List.exists_cons_of_ne_nil hk
      have hcne : c ≠ '@' := by
        intro hcc
        exact hhd1 (by rw [hc, hcc]; rfl)
      rw [hc, List.cons_append]
      exact isCtxTok_cons_ne c _ hcne
    have hproj : isProjTok (kv.1 ++ ':' :: kv.2) = false := by
      obtain ⟨c, cs, hc⟩ := List.exists_cons_of_ne_nil hk
      have hcne : c ≠ '+' := by
        intro hcc
        exact hhd2 (by rw [hc, hcc]; rfl)
      rw [hc, List.cons_append]
      exact isProjTok_cons_ne c _ hcne
    have htag : isTagTok (kv.1 ++ ':' :: kv.2) = true :=
      isTagTok_pair kv.1 kv.2 hk hv hwk hwv hcol
    have hstep : classifyStep st (kv.1 ++ ':' :: kv.2) =
        { st with tags := st.tags ++ [(kv.1, kv.2)] } := by
      simp only [classifyStep, hctx, hproj, htag, Bool.false_eq_true, if_false, if_true]
      rw [splitOnceColon_eq kv.1 kv.2 hcol]
      rw [tagsInsert_fresh kv.1 kv.2 st.tags (hdisj kv (by simp))]
    simp only [List.map_cons, List.foldl_cons, hstep]
    have hrest : ∀ x ∈ rest, ¬ x.1 ∈ ({ st with tags := st.tags ++ [(kv.1, kv.2)] } :
        ParseAcc).tags.map Prod.fst := by
      intro x hx hmem
      simp only [List.map_append, List.mem_append] at hmem
      rcases hmem with hmem | hmem
      · exact hdisj x (by simp [hx]) hmem
      · simp only [List.map_cons, List.map_nil, List.mem_singleton] at hmem
        have : kv.1 ∈ rest.map Prod.fst := by
          exact List.mem_map.mpr ⟨x, hx, hmem⟩
        simp only [List.map_cons, List.nodup_cons] at hnd
        exact hnd.1 this
    rw [ih (fun x hx => h x (by simp [hx]))
      (by simpa using (List.nodup_cons.mp (by simpa using hnd)).2) _ hrest]
    have hpair : (kv.1, kv.2) = kv := rfl
    simp [hpair]

/-! ## Lemmas: parser stages -/

theorem parseCompletionStage_not_x (w : List Char) (rest : List (List Char))
    (h : w ≠ ['x']) : parseCompletionStage (w :: rest) = (false, none, w :: rest) := by
  simp [parseCompletionStage, h]

theorem parsePriorityStage_keep (w : List Char) (rest : List (List Char))
    (h : prioConsumable w = false) :
    parsePriorityStage false (w :: rest) = (none, w :: rest) := by
  unfold parsePriorityStage
  simp only [Bool.false_eq_true, if_false]
  cases hg : (w.head? == some '(' && w.getLast? == some ')' && strByteLen w == 3) with
  | false => simp [hg]
  | true =>
    simp only [hg, if_true]
    cases hfs : priorityFromStr w with
    | ok p =>
      exfalso
      unfold prioConsumable at h
      rw [hg, hfs] at h
      simp at h
    | error e => rfl

theorem upper_char_facts (c : Char) (h1 : 'A' ≤ c) (h2 : c ≤ 'Z') :
    rustWhitespace c = false ∧ c.utf8Size = 1 := by
  obtain ⟨ha, hb⟩ := upper_toNat c h1 h2
  exact ⟨rustWhitespace_eq_false_of c (by omega) (by omega),
    utf8Size_ascii c (by omega)⟩

theorem priorityFromStr_paren (c : Char) (h1 : 'A' ≤ c) (h2 : c ≤ 'Z') :
    priorityFromStr ['(', c, ')'] = Except.ok (Priority.mk c) := by
  have hu := (upper_char_facts c h1 h2).2
  have hlen : strByteLen ['(', c, ')'] = 3 := by
    rw [strByteLen_cons, strByteLen_cons, strByteLen_cons, strByteLen_nil, hu]
    rfl
  have hcond : strByteLen ['(', c, ')'] = 3 ∧ (['(', c, ')'] : List Char).head? = some '(' ∧
      (['(', c, ')'] : List Char).getLast? = some ')' := ⟨hlen, rfl, rfl⟩
  unfold priorityFromStr
  rw [if_pos hcond]
  show (match Priority.new c with
        | some p => Except.ok p
        | none => Except.error (TodoError.InvalidPriority (msgPrioLetter ++ [c]))) =
    Except.ok (Priority.mk c)
  rw [Priority.new, if_pos ⟨h1, h2⟩]

theorem parsePriorityStage_consume (c : Char) (h1 : 'A' ≤ c) (h2 : c ≤ 'Z')
    (rest : List (List Char)) :
    parsePriorityStage false (['(', c, ')'] :: rest) = (some (Priority.mk c), rest) := by
  have hu := (upper_char_facts c h1 h2).2
  have hlen : strByteLen ['(', c, ')'] = 3 := by
    rw [strByteLen_cons, strByteLen_cons, strByteLen_cons, strByteLen_nil, hu]
    rfl
  unfold parsePriorityStage
  simp only [Bool.false_eq_true, if_false]
  have hgate : ((['(', c, ')'] : List Char).head? == some '(' &&
      (['(', c, ')'] : List Char).getLast? == some ')' && strByteLen ['(', c, ')'] == 3) = true := by
    rw [hlen]
    rfl
  rw [hgate]
  simp only [if_true]
  rw [priorityFromStr_paren c h1 h2]

theorem parseCreationStage_consume (w : List Char) (rest : List (List Char)) (d : Date)
    (h : parse_date w = some d) : parseCreationStage (w :: rest) = (some d, rest) := by
  simp [parseCreationStage, h]

theorem parseCreationStage_keep (w : List Char) (rest : List (List Char))
    (h : parse_date w = none) : parseCreationStage (w :: rest) = (none, w :: rest) := by
  simp [parseCreationStage, h]

theorem bang_isEmpty_true (s : List Char) (h : (!s.isEmpty) = true) : s ≠ [] := by
  intro hh; subst hh; simp at h

/-! ## Lemmas: tokenizing a rendered uncompleted record -/

theorem RenderSafe.projFacts {t : Todo} (hrs : RenderSafe t) :
    ∀ p ∈ t.projects, p ≠ [] ∧ noWs p = true := by
  intro p hp
  have := (List.all_eq_true.mp hrs.projOk) p hp
  rw [Bool.and_eq_true] at this
  exact ⟨bang_isEmpty_true p this.1, this.2⟩

theorem RenderSafe.ctxFacts {t : Todo} (hrs : RenderSafe t) :
    ∀ c ∈ t.contexts, c ≠ [] ∧ noWs c = true := by
  intro c hc
  have := (List.all_eq_true.mp hrs.ctxOk) c hc
  rw [Bool.and_eq_true] at this
  exact ⟨bang_isEmpty_true c this.1, this.2⟩

theorem RenderSafe.tagFacts {t : Todo} (hrs : RenderSafe t) :
    ∀ kv ∈ t.tags, kv.1 ≠ [] ∧ kv.2 ≠ [] ∧ noWs kv.1 = true ∧ noWs kv.2 = true ∧
      ¬ ':' ∈ kv.1 ∧ kv.1.head? ≠ some '@' ∧ kv.1.head? ≠ some '+' := by
  intro kv hkv
  have hall := (List.all_eq_true.mp hrs.tagOk) kv hkv
  simp only [Bool.and_eq_true] at hall
  obtain ⟨⟨⟨⟨⟨⟨h1, h2⟩, h3⟩, h4⟩, h5⟩, h6⟩, h7⟩ := hall
  refine ⟨bang_isEmpty_true _ h1, bang_isEmpty_true _ h2, h3, h4, ?_, ?_, ?_⟩
  · intro hmem
    rw [contains_of_mem _ _ hmem] at h5
    simp at h5
  · intro hh
    rw [hh] at h6
    simp at h6
  · intro hh
    rw [hh] at h7
    simp at h7

theorem mem_sortTags {tags : List (List Char × List Char)} {kv : List Char × List Char}
    (h : kv ∈ sortTags tags) : kv ∈ tags :=
  (List.perm_insertionSort _ tags).mem_iff.mp h

theorem sortTags_keys_nodup {tags : List (List Char × List Char)}
    (h : (tags.map Prod.fst).Nodup) : ((sortTags tags).map Prod.fst).Nodup := by
  have hperm : List.Perm ((sortTags tags).map Prod.fst) (tags.map Prod.fst) :=
    (List.perm_insertionSort _ tags).map Prod.fst
  exact hperm.nodup_iff.mpr h

theorem tailToks_facts (t : Todo) (hrs : RenderSafe t) :
    ∀ w ∈ projToks t ++ ctxToks t ++ tagToks t, w ≠ [] ∧ noWs w = true := by
  intro w hw
  rcases List.mem_append.mp hw with hw | hw
  · rcases List.mem_append.mp hw with hw | hw
    · obtain ⟨p, hp, rfl⟩ := List.mem_map.mp hw
      obtain ⟨hne, hnw⟩ := hrs.projFacts p hp
      exact ⟨by simp, noWs_cons '+' p (by decide) hnw⟩
    · obtain ⟨c, hc, rfl⟩ := List.mem_map.mp hw
      obtain ⟨hne, hnw⟩ := hrs.ctxFacts c hc
      exact ⟨by simp, noWs_cons '@' c (by decide) hnw⟩
  · obtain ⟨kv, hkv, rfl⟩ := List.mem_map.mp hw
    obtain ⟨hk, hv, hwk, hwv, _, _, _⟩ := hrs.tagFacts kv (mem_sortTags hkv)
    constructor
    · intro hh
      exact hk (List.append_eq_nil.mp hh).1
    · exact noWs_append _ _ hwk (noWs_cons ':' _ (by decide) hwv)

theorem splitWs_render (t : Todo) (hc : t.completed = false) (hrs : RenderSafe t) :
    splitWhitespace (Todo.render t) =
      (match t.priority with | some p => [['(', p.c, ')']] | none => []) ++
      (match t.creation_date with | some d => [renderDate d] | none => []) ++ remToks t := by
  have htail := tailToks_facts t hrs
  have hstep1 : Todo.render t =
      ((match t.priority with | some p => renderPriority p ++ [' '] | none => []) ++
       (match t.creation_date with | some d => renderDate d ++ [' '] | none => []) ++
       t.description) ++
      ((projToks t ++ ctxToks t ++ tagToks t).map (fun w => ' ' :: w)).flatten := by
    simp only [Todo.render, hc, Bool.false_eq_true, if_false, projToks, ctxToks,
      tagToks, List.map_map, List.map_append, List.flatten_append, Function.comp_def,
      List.append_assoc]
  rw [hstep1]
  rw [splitWs_pre_toks _ htail]
  have hdesc : splitWhitespace t.description = descWords t := rfl
  rcases hp : t.priority with _ | p
  · rcases hd : t.creation_date with _ | d
    · simp only [List.nil_append]
      rw [hdesc]
      simp [remToks]
    · have hD : ([] : List Char) ++ (renderDate d ++ [' ']) ++ t.description =
          renderDate d ++ ' ' :: t.description := by simp
      rw [hD, splitWs_append_space, splitWs_single (renderDate d) (renderDate_ne_nil d)
        (renderDate_noWs d), hdesc]
      simp [remToks]
  · have hup : 'A' ≤ p.c ∧ p.c ≤ 'Z' := by
      have := hrs.prioOk
      rw [hp] at this
      simp only [Bool.and_eq_true, decide_eq_true_eq] at this
      exact this
    have hpnws := (upper_char_facts p.c hup.1 hup.2).1
    have hprio_nws : noWs ['(', p.c, ')'] = true := by
      rw [noWs_iff]
      intro x hx
      rcases List.mem_cons.mp hx with rfl | hx
      · decide
      rcases List.mem_cons.mp hx with rfl | hx
      · exact hpnws
      rcases List.mem_cons.mp hx with rfl | hx
      · decide
      · cases hx
    rcases hd : t.creation_date with _ | d
    · have hP : (renderPriority p ++ [' ']) ++ ([] : List Char) ++ t.description =
          ['(', p.c, ')'] ++ ' ' :: t.description := by simp [renderPriority]
      rw [hP, splitWs_append_space, splitWs_single ['(', p.c, ')'] (by simp) hprio_nws,
        hdesc]
      simp [remToks]
    · have hP : (renderPriority p ++ [' ']) ++ (renderDate d ++ [' ']) ++ t.description =
          ['(', p.c, ')'] ++ ' ' :: (renderDate d ++ ' ' :: t.description) := by
        simp [renderPriority]
      rw [hP, splitWs_append_space, splitWs_single ['(', p.c, ')'] (by simp) hprio_nws,
        splitWs_append_space, splitWs_single (renderDate d) (renderDate_ne_nil d)
          (renderDate_noWs d), hdesc]
      simp [remToks]

/-! ## Lemmas: assembling the parse of a rendered record -/

theorem bang_true (b : Bool) (h : (!b) = true) : b = false := by
  cases b
  · rfl
  · simp at h

theorem classify_remToks (t : Todo) (hrs : RenderSafe t) :
    classifyTokens (remToks t) =
      ParseAcc.mk (descWords t) t.contexts t.projects (sortTags t.tags) := by
  unfold classifyTokens remToks projToks ctxToks tagToks
  rw [List.foldl_append, List.foldl_append, List.foldl_append]
  have hdesc : ∀ w ∈ descWords t,
      isCtxTok w = false ∧ isProjTok w = false ∧ isTagTok w = false := by
    intro w hw
    have := (List.all_eq_true.mp hrs.descNoTok) w hw
    simp only [Bool.and_eq_true] at this
    exact ⟨bang_true _ this.1.1, bang_true _ this.1.2, bang_true _ this.2⟩
  rw [classify_desc_seg (descWords t) hdesc]
  rw [classify_proj_seg t.projects (fun p hp => (hrs.projFacts p hp).1)]
  rw [classify_ctx_seg t.contexts (fun c hc => (hrs.ctxFacts c hc).1)]
  rw [classify_tag_seg (sortTags t.tags)
    (fun kv hkv => hrs.tagFacts kv (mem_sortTags hkv))
    (sortTags_keys_nodup hrs.tagKeysNodup) _ (by intro kv _ hmem; simp at hmem)]
  simp

theorem tagsLookup_perm (l1 l2 : List (List Char × List Char))
    (hperm : List.Perm l1 l2) (hnd : (l1.map Prod.fst).Nodup) (k : List Char) :
    tagsLookup k l1 = tagsLookup k l2 := by
  induction hperm with
  | nil => rfl
  | cons x h ih =>
    simp only [List.map_cons, List.nodup_cons] at hnd
    by_cases hx : x.1 = k <;> simp [tagsLookup, hx, ih hnd.2]
  | swap x y l =>
    simp only [List.map_cons, List.nodup_cons, List.mem_cons] at hnd
    have hxy : y.1 ≠ x.1 := fun hh => hnd.1 (Or.inl hh)
    by_cases hx : x.1 = k <;> by_cases hy : y.1 = k
    · exact absurd (hy.trans hx.symm) hxy
    · simp [tagsLookup, hx, hy]
    · simp [tagsLookup, hx, hy]
    · simp [tagsLookup, hx, hy]
  | trans h1 h2 ih1 ih2 =>
    rw [ih1 hnd]
    have hnd2 : _ := ((h1.map Prod.fst).nodup_iff).mp hnd
    rw [ih2 hnd2]

theorem splitWsAux_tokens_ne_nil (s : List Char) :
    ∀ acc, ∀ w ∈ splitWsAux s acc, w ≠ [] := by
  induction s with
  | nil =>
    intro acc w hw
    by_cases ha : acc = []
    · simp [splitWsAux, ha] at hw
    · simp only [splitWsAux, if_neg ha, List.mem_singleton] at hw
      subst hw
      simpa using ha
  | cons c cs ih =>
    intro acc w hw
    by_cases hws : rustWhitespace c
    · by_cases ha : acc = []
      · exact ih [] w (by simpa [splitWsAux, hws, ha] using hw)
      · simp only [splitWsAux, hws, if_true, if_neg ha, List.mem_cons] at hw
        rcases hw with rfl | hw
        · simpa using ha
        · exact ih [] w hw
    · exact ih (c :: acc) w (by simpa [splitWsAux, hws] using hw)

theorem splitWhitespace_tokens_ne_nil (s : List Char) :
    ∀ w ∈ splitWhitespace s, w ≠ [] :=
  splitWsAux_tokens_ne_nil s []

theorem joinSep_ne_nil (ws_ : List (List Char)) (h : ws_ ≠ [])
    (hw : ∀ w ∈ ws_, w ≠ []) : joinSep ws_ ≠ [] := by
  match ws_ with
  | [] => exact absurd rfl h
  | [w] => exact hw w (by simp)
  | w :: x :: rest =>
    show w ++ ' ' :: joinSep (x :: rest) ≠ []
    intro hcon
    exact absurd (List.append_eq_nil.mp hcon).2 (by simp)

theorem remToks_ne_nil (t : Todo) (hrs : RenderSafe t) : remToks t ≠ [] := by
  intro h
  rw [remToks, projToks, ctxToks] at h
  simp only [List.append_eq_nil, List.map_eq_nil_iff] at h
  rcases hrs.content with hcon | hcon | hcon
  · exact hcon h.1.1.1
  · exact hcon h.1.2
  · exact hcon h.1.1.2

theorem prioConsumable_head_ne (w : List Char) (h : w.head? ≠ some '(') :
    prioConsumable w = false := by
  have hf : (w.head? == some '(') = false := by
    simpa using h
  unfold prioConsumable
  rw [hf, Bool.false_and, Bool.false_and, Bool.false_and]

theorem beq_none_eq (a : Option Date) (h : (a == none) = true) : a = none := by
  cases a
  · rfl
  · simp at h

theorem RenderSafe.descEq {t : Todo} (hrs : RenderSafe t) :
    joinSep (descWords t) = t.description := hrs.descNorm.symm

theorem RenderSafe.notEmptyCond {t : Todo} (hrs : RenderSafe t) :
    ¬ (joinSep (descWords t) = [] ∧ t.contexts = [] ∧ t.projects = []) := by
  rintro ⟨h1, h2, h3⟩
  rcases hrs.content with hcon | hcon | hcon
  · exact joinSep_ne_nil (descWords t) hcon (splitWhitespace_tokens_ne_nil _) h1
  · exact hcon h2
  · exact hcon h3

theorem parse_todo_render (t : Todo) (hc : t.completed = false) (hrs : RenderSafe t) :
    parse_todo (Todo.render t) =
      Except.ok (Todo.mk false t.priority none t.creation_date t.description
        t.contexts t.projects (sortTags t.tags)) := by
  have hT0 := splitWs_render t hc hrs
  have hrem := remToks_ne_nil t hrs
  have htrimne : trim (Todo.render t) ≠ [] := by
    intro hnil
    have hempty := trim_nil_split _ hnil
    rw [hT0] at hempty
    rcases List.append_eq_nil.mp hempty with ⟨h1, h2⟩
    exact hrem h2
  have hclass := classify_remToks t hrs
  simp only [parse_todo]
  rw [if_neg htrimne]
  rcases hp : t.priority with _ | p
  · rcases hd : t.creation_date with _ | d
    · -- no priority, no creation date: the first remaining token stays put
      obtain ⟨w0, rest0, hw0⟩ := List.exists_cons_of_ne_nil hrem
      have hsplit : splitWhitespace (trim (Todo.render t)) = w0 :: rest0 := by
        rw [splitWs_trim, hT0, hp, hd, hw0]
        simp
      have hmark := hrs.headMarker
      rw [hp, hd, hw0] at hmark
      simp only [List.head?_cons, Bool.and_eq_true] at hmark
      have hnx : w0 ≠ ['x'] := by
        intro hh
        rw [hh] at hmark
        simp at hmark
      have hnp : prioConsumable w0 = false := bang_true _ hmark.2
      have hnd : parse_date w0 = none := by
        have hdt := hrs.headDate
        rw [hd, hw0] at hdt
        simp only [List.head?_cons] at hdt
        exact beq_none_eq _ hdt
      rw [hsplit]
      rw [parseCompletionStage_not_x w0 rest0 hnx]
      simp only []
      rw [parsePriorityStage_keep w0 rest0 hnp]
      simp only []
      rw [parseCreationStage_keep w0 rest0 hnd]
      simp only []
      rw [← hw0, hclass]
      simp only []
      rw [if_neg hrs.notEmptyCond]
      rw [hrs.descEq]
    · -- creation date only
      have hdv : dateValid d.year d.month d.day = true := by
        have := hrs.cdateOk
        rw [hd] at this
        exact this
      have hpd := parse_renderDate d hdv
      have hsplit : splitWhitespace (trim (Todo.render t)) =
          renderDate d :: remToks t := by
        rw [splitWs_trim, hT0, hp, hd]
        simp
      rw [hsplit]
      rw [parseCompletionStage_not_x (renderDate d) (remToks t) (renderDate_ne_x d)]
      simp only []
      rw [parsePriorityStage_keep (renderDate d) (remToks t)
        (prioConsumable_head_ne _ (renderDate_head_ne d).2)]
      simp only []
      rw [parseCreationStage_consume (renderDate d) (remToks t) d hpd]
      simp only []
      rw [hclass]
      simp only []
      rw [if_neg hrs.notEmptyCond]
      rw [hrs.descEq]
  · have hup : 'A' ≤ p.c ∧ p.c ≤ 'Z' := by
      have := hrs.prioOk
      rw [hp] at this
      simp only [Bool.and_eq_true, decide_eq_true_eq] at this
      exact this
    have hnxp : (['(', p.c, ')'] : List Char) ≠ ['x'] := by
      intro hh
      have := List.head_eq_of_cons_eq hh
      exact absurd this (by decide)
    rcases hd : t.creation_date with _ | d
    · -- priority only
      obtain ⟨w0, rest0, hw0⟩ := List.exists_cons_of_ne_nil hrem
      have hsplit : splitWhitespace (trim (Todo.render t)) =
          ['(', p.c, ')'] :: remToks t := by
        rw [splitWs_trim, hT0, hp, hd]
        simp
      have hnd : parse_date w0 = none := by
        have hdt := hrs.headDate
        rw [hd, hw0] at hdt
        simp only [List.head?_cons] at hdt
        exact beq_none_eq _ hdt
      rw [hsplit]
      rw [parseCompletionStage_not_x ['(', p.c, ')'] (remToks t) hnxp]
      simp only []
      rw [parsePriorityStage_consume p.c hup.1 hup.2 (remToks t)]
      simp only []
      rw [hw0]
      rw [parseCreationStage_keep w0 rest0 hnd]
      simp only []
      rw [← hw0, hclass]
      simp only []
      rw [if_neg hrs.notEmptyCond]
      rw [hrs.descEq]
    · -- priority and creation date
      have hdv : dateValid d.year d.month d.day = true := by
        have := hrs.cdateOk
        rw [hd] at this
        exact this
      have hpd := parse_renderDate d hdv
      have hsplit : splitWhitespace (trim (Todo.render t)) =
          ['(', p.c, ')'] :: renderDate d :: remToks t := by
        rw [splitWs_trim, hT0, hp, hd]
        simp
      rw [hsplit]
      rw [parseCompletionStage_not_x ['(', p.c, ')'] (renderDate d :: remToks t) hnxp]
      simp only []
      rw [parsePriorityStage_consume p.c hup.1 hup.2 (renderDate d :: remToks t)]
      simp only []
      rw [parseCreationStage_consume (renderDate d) (remToks t) d hpd]
      simp only []
      rw [hclass]
      simp only []
      rw [if_neg hrs.notEmptyCond]
      rw [hrs.descEq]

/-! ## Further helper lemmas for the claim theorems -/

theorem parse_todo_error_shape (s : List Char) (e : TodoError)
    (h : parse_todo s = Except.error e) : ∃ m, e = TodoError.ParseError m := by
  simp only [parse_todo] at h
  split at h
  · exact ⟨msgEmptyLine, (Except.error.inj h).symm⟩
  · split at h
    · exact ⟨msgEmptyTask, (Except.error.inj h).symm⟩
    · cases h

theorem parseCompletionStage_x (rest : List (List Char)) :
    (parseCompletionStage (['x'] :: rest)).1 = true := by
  match rest with
  | [] => rfl
  | dtok :: rest2 =>
    cases hpd : parse_date dtok <;> simp [parseCompletionStage, hpd]

theorem parsePriorityStage_completed (parts : List (List Char)) :
    parsePriorityStage true parts = (none, parts) := rfl

theorem byteLen3_shape (s : List Char) (h3 : strByteLen s = 3)
    (hh : s.head? = some '(') (hl : s.getLast? = some ')') :
    ∃ c, s = ['(', c, ')'] := by
  match s with
  | [] => cases hh
  | [a] =>
    have ha : a = '(' := by simpa using hh
    have hb : a = ')' := by simpa using hl
    exact absurd (ha ▸ hb) (by decide)
  | [a, b] =>
    have ha : a = '(' := by simpa using hh
    have hb : b = ')' := by
      have : ([a, b] : List Char).getLast? = some b := rfl
      rw [this] at hl
      simpa using hl
    subst ha; subst hb
    rw [strByteLen_cons, strByteLen_cons, strByteLen_nil] at h3
    have e1 : ('(').utf8Size = 1 := by decide
    have e2 : (')').utf8Size = 1 := by decide
    rw [e1, e2] at h3
    omega
  | [a, b, c] =>
    have ha : a = '(' := by simpa using hh
    have hc : c = ')' := by
      have : ([a, b, c] : List Char).getLast? = some c := rfl
      rw [this] at hl
      simpa using hl
    exact ⟨b, by rw [ha, hc]⟩
  | a :: b :: c :: d :: rest =>
    have hlen := length_le_strByteLen (a :: b :: c :: d :: rest)
    simp only [List.length_cons] at hlen
    omega

theorem contains_iff_mem_ll (l : List (List Char)) (x : List Char) :
    l.contains x = true ↔ x ∈ l := by
  constructor
  · intro h
    simpa [List.contains] using h
  · intro h
    simpa [List.contains] using h

theorem classify_ctx_filterMap (toks : List (List Char)) :
    ∀ st : ParseAcc, (toks.foldl classifyStep st).contexts =
      st.contexts ++ toks.filterMap ctxOfTok := by
  induction toks with
  | nil => intro st; simp
  | cons w rest ih =>
    intro st
    simp only [List.foldl_cons, List.filterMap_cons]
    by_cases hctx : isCtxTok w = true
    · have hstep : classifyStep st w = { st with contexts := st.contexts ++ [w.tail] } := by
        simp [classifyStep, hctx]
      rw [hstep, ih]
      simp [ctxOfTok, hctx]
    · have hof : ctxOfTok w = none := by simp [ctxOfTok, hctx]
      have hsame : (classifyStep st w).contexts = st.contexts := by
        unfold classifyStep
        rw [if_neg hctx]
        split
        · rfl
        · split
          · rfl
          · rfl
      rw [hof, ih]
      rw [hsame]

theorem isProjTok_not_ctx (w : List Char) (h : isProjTok w = true) :
    isCtxTok w = false := by
  unfold isProjTok at h
  rw [Bool.and_eq_true] at h
  have hhd : w.head? = some '+' := by simpa using h.1
  unfold isCtxTok
  rw [hhd]
  simp

theorem classify_proj_filterMap (toks : List (List Char)) :
    ∀ st : ParseAcc, (toks.foldl classifyStep st).projects =
      st.projects ++ toks.filterMap projOfTok := by
  induction toks with
  | nil => intro st; simp
  | cons w rest ih =>
    intro st
    simp only [List.foldl_cons, List.filterMap_cons]
    by_cases hproj : isProjTok w = true
    · have hctx : isCtxTok w = false := isProjTok_not_ctx w hproj
      have hstep : classifyStep st w = { st with projects := st.projects ++ [w.tail] } := by
        simp [classifyStep, hctx, hproj]
      rw [hstep, ih]
      simp [projOfTok, hproj]
    · have hof : projOfTok w = none := by simp [projOfTok, hproj]
      have hsame : (classifyStep st w).projects = st.projects := by
        by_cases h1 : isCtxTok w = true
        · simp [classifyStep, h1]
        · by_cases h2 : isTagTok w = true
          · simp [classifyStep, h1, hproj, h2]
          · simp [classifyStep, h1, hproj, h2]
      rw [hof, ih]
      rw [hsame]

/-! ## Claim theorems -/

/-- C10.  `uncomplete` clears the completed flag and always discards the
completion date — including one just stamped by `complete` — while leaving
priority, creation date, description, contexts, projects and tags
untouched. -/
theorem c10_uncomplete_frame :
    ∀ t : Todo, (t.uncomplete).completed = false ∧
      (t.uncomplete).completion_date = none ∧
      (t.uncomplete).priority = t.priority ∧
      (t.uncomplete).creation_date = t.creation_date ∧
      (t.uncomplete).description = t.description ∧
      (t.uncomplete).contexts = t.contexts ∧
      (t.uncomplete).projects = t.projects ∧
      (t.uncomplete).tags = t.tags ∧
      ∀ today : Date, ((t.complete today).uncomplete).completion_date = none :=
  fun _ => ⟨rfl, rfl, rfl, rfl, rfl, rfl, rfl, rfl, fun _ => rfl⟩

/-- C7.  `TodoList::remove` fails with `IndexOutOfBounds i` and leaves the
list unchanged when `i` is out of range; otherwise it returns the record at
index `i`, the length shrinks by one, indices below `i` are unchanged and
every record previously at an index `j > i` moves to `j - 1`. -/
theorem c7_remove_spec (l : TodoList) (i : Nat) :
    (l.todos.length ≤ i →
      TodoList.remove l i = (Except.error (TodoError.IndexOutOfBounds i), l)) ∧
    ∀ h : i < l.todos.length,
      (TodoList.remove l i).1 = Except.ok (l.todos.get ⟨i, h⟩) ∧
      (TodoList.remove l i).2.todos.length = l.todos.length - 1 ∧
      (∀ j, j < i → (TodoList.remove l i).2.todos[j]? = l.todos[j]?) ∧
      (∀ j, i < j → j < l.todos.length →
        (TodoList.remove l i).2.todos[j - 1]? = l.todos[j]?) := by
  constructor
  · intro hle
    unfold TodoList.remove
    rw [if_neg (by omega)]
  · intro h
    have hrem : TodoList.remove l i =
        (Except.ok (l.todos.getD i (Todo.new [])), TodoList.mk (l.todos.eraseIdx i)) := by
      unfold TodoList.remove
      rw [if_pos h]
    refine ⟨?_, ?_, ?_, ?_⟩
    · rw [hrem]
      simp only []
      rw [List.getD_eq_getElem l.todos (Todo.new []) h]
      rfl
    · rw [hrem]
      simp only []
      rw [List.length_eraseIdx, if_pos h]
    · intro j hj
      rw [hrem]
      simp only []
      rw [List.getElem?_eraseIdx, if_pos hj]
    · intro j hij hjlen
      rw [hrem]
      simp only []
      rw [List.getElem?_eraseIdx, if_neg (by omega)]
      have : j - 1 + 1 = j := by omega
      rw [this]

/-- C7 witness: removing index 0 from a two-element list returns the first
record, and removing index 5 from a one-element list fails with
`IndexOutOfBounds 5` leaving the list unchanged. -/
theorem c7_remove_spec_witness :
    (TodoList.remove (TodoList.mk [Todo.new ['a'], Todo.new ['b']]) 0).1 =
      Except.ok (Todo.new ['a']) ∧
    TodoList.remove (TodoList.mk [Todo.new ['a']]) 5 =
      (Except.error (TodoError.IndexOutOfBounds 5), TodoList.mk [Todo.new ['a']]) := by
  constructor
  · exact ((c7_remove_spec (TodoList.mk [Todo.new ['a'], Todo.new ['b']]) 0).2
      (by decide)).1
  · exact (c7_remove_spec (TodoList.mk [Todo.new ['a']]) 5).1 (by decide)

/-- C8.  Bulk loading never fails: `from_string` returns `Ok` of exactly
the records of the non-blank lines that parse successfully, in input-line
order; blank lines and unparseable lines are skipped. -/
theorem c8_from_string_total : ∀ content : List Char,
    TodoList.from_string content =
      Except.ok (TodoList.mk ((rustLines content).filterMap lineOk)) := by
  have hfold : ∀ (ls : List (List Char)) (acc : List Todo),
      ls.foldl
        (fun acc l =>
          let l1 := trim l
          if l1 = [] then acc
          else
            match parse_todo l1 with
            | Except.ok td => acc ++ [td]
            | Except.error _ => acc)
        acc = acc ++ ls.filterMap lineOk := by
    intro ls
    induction ls with
    | nil => intro acc; simp
    | cons l rest ih =>
      intro acc
      simp only [List.foldl_cons, List.filterMap_cons]
      by_cases hbl : trim l = []
      · have hok : lineOk l = none := by simp [lineOk, hbl]
        rw [hok]
        simp only [if_pos hbl]
        exact ih acc
      · simp only [if_neg hbl]
        cases hpt : parse_todo (trim l) with
        | ok td =>
          have hok : lineOk l = some td := by simp [lineOk, hbl, hpt]
          rw [hok, ih]
          simp
        | error e =>
          have hok : lineOk l = none := by simp [lineOk, hbl, hpt]
          rw [hok, ih]
  intro content
  unfold TodoList.from_string
  rw [hfold (rustLines content) []]
  rfl

/-- C9.  Deduplication is asymmetric: `add_context`/`add_project` are
no-ops on an already-present label, append fresh labels at the end, are
idempotent and preserve duplicate-freedom; the parser's classification
loop instead appends the remainder of every `@`/`+` token (byte length
greater than 1) in encountered order without deduplication, so a parsed
record can contain duplicate contexts. -/
theorem c9_dedup_asymmetry :
    (∀ (t : Todo) (c : List Char), c ∈ t.contexts → t.add_context c = t) ∧
    (∀ (t : Todo) (c : List Char), ¬ c ∈ t.contexts →
      (t.add_context c).contexts = t.contexts ++ [c]) ∧
    (∀ (t : Todo) (c : List Char),
      (t.add_context c).add_context c = t.add_context c) ∧
    (∀ (t : Todo) (c : List Char), t.contexts.Nodup → (t.add_context c).contexts.Nodup) ∧
    (∀ (t : Todo) (p : List Char), p ∈ t.projects → t.add_project p = t) ∧
    (∀ (t : Todo) (p : List Char), ¬ p ∈ t.projects →
      (t.add_project p).projects = t.projects ++ [p]) ∧
    (∀ (t : Todo) (p : List Char),
      (t.add_project p).add_project p = t.add_project p) ∧
    (∀ (t : Todo) (p : List Char), t.projects.Nodup → (t.add_project p).projects.Nodup) ∧
    (∀ toks : List (List Char),
      (classifyTokens toks).contexts = toks.filterMap ctxOfTok ∧
      (classifyTokens toks).projects = toks.filterMap projOfTok) ∧
    (∃ (s : List Char) (t : Todo), parse_todo s = Except.ok t ∧ ¬ t.contexts.Nodup) := by
  have haddc : ∀ (t : Todo) (c : List Char), c ∈ t.contexts → t.add_context c = t := by
    intro t c hmem
    unfold Todo.add_context
    rw [if_pos ((contains_iff_mem_ll _ _).mpr hmem)]
  have haddc2 : ∀ (t : Todo) (c : List Char), ¬ c ∈ t.contexts →
      (t.add_context c).contexts = t.contexts ++ [c] := by
    intro t c hmem
    unfold Todo.add_context
    rw [if_neg (fun hcon => hmem ((contains_iff_mem_ll _ _).mp hcon))]
  have haddp : ∀ (t : Todo) (p : List Char), p ∈ t.projects → t.add_project p = t := by
    intro t p hmem
    unfold Todo.add_project
    rw [if_pos ((contains_iff_mem_ll _ _).mpr hmem)]
  have haddp2 : ∀ (t : Todo) (p : List Char), ¬ p ∈ t.projects →
      (t.add_project p).projects = t.projects ++ [p] := by
    intro t p hmem
    unfold Todo.add_project
    rw [if_neg (fun hcon => hmem ((contains_iff_mem_ll _ _).mp hcon))]
  refine ⟨haddc, haddc2, ?_, ?_, haddp, haddp2, ?_, ?_, ?_, ?_⟩
  · intro t c
    by_cases hmem : c ∈ t.contexts
    · rw [haddc t c hmem, haddc t c hmem]
    · apply haddc
      rw [haddc2 t c hmem]
      simp
  · intro t c hnd
    by_cases hmem : c ∈ t.contexts
    · rw [haddc t c hmem]; exact hnd
    · rw [haddc2 t c hmem]
      simp [List.nodup_append, hnd, hmem]
  · intro t p
    by_cases hmem : p ∈ t.projects
    · rw [haddp t p hmem, haddp t p hmem]
    · apply haddp
      rw [haddp2 t p hmem]
      simp
  · intro t p hnd
    by_cases hmem : p ∈ t.projects
    · rw [haddp t p hmem]; exact hnd
    · rw [haddp2 t p hmem]
      simp [List.nodup_append, hnd, hmem]
  · intro toks
    constructor
    · have := classify_ctx_filterMap toks (ParseAcc.mk [] [] [] [])
      simpa [classifyTokens] using this
    · have := classify_proj_filterMap toks (ParseAcc.mk [] [] [] [])
      simpa [classifyTokens] using this
  · refine ⟨("t @a @a").data,
      Todo.mk false none none none ['t'] [['a'], ['a']] [] [], ?_, ?_⟩
    · decide
    · decide

/-- C9 witness: adding the context `"a"` twice explicitly yields a single
copy, while parsing a line with `@a` twice yields two copies. -/
theorem c9_dedup_asymmetry_witness :
    ((Todo.new ['t']).add_context ['a']).add_context ['a'] =
      (Todo.new ['t']).add_context ['a'] ∧
    ((Todo.new ['t']).add_context ['a']).contexts = [['a']] := by
  constructor
  · exact c9_dedup_asymmetry.2.2.1 (Todo.new ['t']) ['a']
  · exact (c9_dedup_asymmetry.2.1 (Todo.new ['t']) ['a'] (by decide)).trans (by decide)

/-- C3 counterexample: no input line makes `parse_todo` return an
`InvalidDateFormat` or `InvalidPriority` error — date-parse and
priority-parse failures inside the line parser are swallowed, so the
claimed propagation is impossible. -/
theorem c3_counterexample :
    ¬ ∃ s : List Char,
      (∃ m, parse_todo s = Except.error (TodoError.InvalidDateFormat m)) ∨
      (∃ m, parse_todo s = Except.error (TodoError.InvalidPriority m)) := by
  rintro ⟨s, h | h⟩
  · obtain ⟨m, hm⟩ := h
    obtain ⟨m', hm'⟩ := parse_todo_error_shape s _ hm
    cases hm'
  · obtain ⟨m, hm⟩ := h
    obtain ⟨m', hm'⟩ := parse_todo_error_shape s _ hm
    cases hm'

/-- C3 (amended).  The line parser surfaces only `ParseError` to its
caller: every `parse_todo` result is either a success or a `ParseError`;
`InvalidDateFormat` and `InvalidPriority` conditions are swallowed inside
the parser (the offending token falls through to later classification)
and never escape. -/
theorem c3_error_kinds : ∀ s : List Char,
    (∃ t, parse_todo s = Except.ok t) ∨
    (∃ m, parse_todo s = Except.error (TodoError.ParseError m)) := by
  intro s
  cases h : parse_todo s with
  | ok t => exact Or.inl ⟨t, rfl⟩
  | error e =>
    obtain ⟨m, hm⟩ := parse_todo_error_shape s e h
    exact Or.inr ⟨m, by rw [hm]⟩

/-- C4.  `parse_todo` returns a `ParseError` exactly when the trimmed line
is empty, or the token-extraction stages leave an empty description and no
contexts and no projects; in every other case parsing succeeds. -/
theorem c4_parse_error_iff : ∀ s : List Char,
    ((∃ m, parse_todo s = Except.error (TodoError.ParseError m)) ↔
      (trim s = [] ∨
        (joinSep (extractedAcc s).descParts = [] ∧ (extractedAcc s).contexts = [] ∧
         (extractedAcc s).projects = []))) ∧
    (¬ (trim s = [] ∨
        (joinSep (extractedAcc s).descParts = [] ∧ (extractedAcc s).contexts = [] ∧
         (extractedAcc s).projects = [])) →
      ∃ t, parse_todo s = Except.ok t) := by
  intro s
  have hacc : extractedAcc s =
      classifyTokens (parseCreationStage
        (parsePriorityStage (parseCompletionStage (splitWhitespace (trim s))).1
          (parseCompletionStage (splitWhitespace (trim s))).2.2).2).2 := rfl
  by_cases h1 : trim s = []
  · constructor
    · constructor
      · intro _
        exact Or.inl h1
      · intro _
        refine ⟨msgEmptyLine, ?_⟩
        simp only [parse_todo]
        rw [if_pos h1]
    · intro hno
      exact absurd (Or.inl h1) hno
  · by_cases h2 : joinSep (extractedAcc s).descParts = [] ∧
        (extractedAcc s).contexts = [] ∧ (extractedAcc s).projects = []
    · constructor
      · constructor
        · intro _
          exact Or.inr h2
        · intro _
          refine ⟨msgEmptyTask, ?_⟩
          simp only [parse_todo]
          rw [if_neg h1, if_pos (by rw [hacc] at h2; exact h2)]
      · intro hno
        exact absurd (Or.inr h2) hno
    · have hok : ∃ t, parse_todo s = Except.ok t := by
        cases hpt : parse_todo s with
        | ok t => exact ⟨t, rfl⟩
        | error e =>
          exfalso
          simp only [parse_todo] at hpt
          rw [if_neg h1] at hpt
          split at hpt
          · next hcnd => exact h2 (by rw [hacc]; exact hcnd)
          · cases hpt
      constructor
      · constructor
        · intro ⟨m, hm⟩
          obtain ⟨t, ht⟩ := hok
          rw [ht] at hm
          cases hm
        · intro hcond
          rcases hcond with hcond | hcond
          · exact absurd hcond h1
          · exact absurd hcond h2
      · intro _
        exact hok

/-- C4 witness: a tags-only line raises a `ParseError` (by the iff, since
its extraction is structurally empty), and a line with a description
parses successfully. -/
theorem c4_parse_error_iff_witness :
    (∃ m, parse_todo ("due:2024-11-10").data =
      Except.error (TodoError.ParseError m)) ∧
    (∃ t, parse_todo ("pay rent").data = Except.ok t) := by
  constructor
  · exact (c4_parse_error_iff ("due:2024-11-10").data).1.mpr (Or.inr (by decide))
  · exact (c4_parse_error_iff ("pay rent").data).2 (by decide)

/-- C5.  A completed task's stored priority is invisible: rendering a
completed record is independent of its priority field, and parsing any
line whose first token is exactly `x` yields a record with no priority. -/
theorem c5_completed_priority_hidden :
    (∀ t : Todo, t.completed = true →
      Todo.render t = Todo.render { t with priority := none }) ∧
    (∀ (s : List Char) (t : Todo),
      (splitWhitespace (trim s)).head? = some ['x'] →
      parse_todo s = Except.ok t → t.priority = none) := by
  constructor
  · intro t h
    simp [Todo.render, h]
  · intro s t hhead hok
    simp only [parse_todo] at hok
    by_cases htr : trim s = []
    · rw [if_pos htr] at hok
      cases hok
    · rw [if_neg htr] at hok
      obtain ⟨w0, rest, hw⟩ : ∃ w0 rest, splitWhitespace (trim s) = w0 :: rest := by
        cases hsp : splitWhitespace (trim s) with
        | nil => rw [hsp] at hhead; cases hhead
        | cons a b => exact ⟨a, b, rfl⟩
      rw [hw] at hhead
      simp only [List.head?_cons, Option.some.injEq] at hhead
      rw [hw, hhead] at hok
      have hcx := parseCompletionStage_x rest
      rw [hcx] at hok
      rw [parsePriorityStage_completed] at hok
      simp only [] at hok
      split at hok
      · cases hok
      · have := Except.ok.inj hok
        rw [← this]

/-- C5 witness: a completed record with a stored priority renders the same
as without it, and parsing `"x 2024-11-03 pay rent"` yields no priority. -/
theorem c5_completed_priority_hidden_witness :
    Todo.render (Todo.mk true (some (Priority.mk 'A')) none none ['p'] [] [] []) =
      Todo.render { Todo.mk true (some (Priority.mk 'A')) none none ['p'] [] [] [] with
        priority := none } ∧
    (Todo.mk true none (some (Date.mk 2024 11 3)) none ("pay rent").data
      [] [] []).priority = none := by
  constructor
  · exact c5_completed_priority_hidden.1 _ rfl
  · exact c5_completed_priority_hidden.2 ("x 2024-11-03 pay rent").data
      (Todo.mk true none (some (Date.mk 2024 11 3)) none ("pay rent").data [] [] [])
      (by decide) (by decide)

/-- C6.  `Priority::from_str` succeeds exactly on the three-character
shape `(X)` with an uppercase ASCII interior, stores that letter, and
fails with an `InvalidPriority` error on every other input. -/
theorem c6_priority_from_str : ∀ s : List Char,
    (∀ p, priorityFromStr s = Except.ok p →
      s = ['(', p.c, ')'] ∧ 'A' ≤ p.c ∧ p.c ≤ 'Z') ∧
    (∀ c, 'A' ≤ c → c ≤ 'Z' →
      priorityFromStr ['(', c, ')'] = Except.ok (Priority.mk c)) ∧
    ((∀ p, priorityFromStr s ≠ Except.ok p) →
      ∃ m, priorityFromStr s = Except.error (TodoError.InvalidPriority m)) := by
  intro s
  refine ⟨?_, fun c h1 h2 => priorityFromStr_paren c h1 h2, ?_⟩
  · intro p hp
    by_cases hcond : strByteLen s = 3 ∧ s.head? = some '(' ∧ s.getLast? = some ')'
    · obtain ⟨c, hc⟩ := byteLen3_shape s hcond.1 hcond.2.1 hcond.2.2
      subst hc
      by_cases hup : 'A' ≤ c ∧ c ≤ 'Z'
      · rw [priorityFromStr_paren c hup.1 hup.2] at hp
        have hpc : Priority.mk c = p := Except.ok.inj hp
        subst hpc
        exact ⟨rfl, hup⟩
      · have hbad : priorityFromStr ['(', c, ')'] =
            Except.error (TodoError.InvalidPriority (msgPrioLetter ++ [c])) := by
          unfold priorityFromStr
          rw [if_pos hcond]
          have hget : (['(', c, ')'] : List Char).get? 1 = some c := rfl
          rw [hget]
          show (match Priority.new c with
                | some p => Except.ok p
                | none =>
                    Except.error (TodoError.InvalidPriority (msgPrioLetter ++ [c]))) = _
          unfold Priority.new
          rw [if_neg hup]
        rw [hbad] at hp
        cases hp
    · have hbad : priorityFromStr s =
          Except.error (TodoError.InvalidPriority (msgPrioFormat ++ s)) := by
        unfold priorityFromStr
        rw [if_neg hcond]
      rw [hbad] at hp
      cases hp
  · intro hnone
    cases he : priorityFromStr s with
    | ok p => exact absurd he (hnone p)
    | error e =>
      unfold priorityFromStr at he
      split at he
      · split at he
        · split at he
          · cases he
          · exact ⟨_, by rw [← Except.error.inj he]⟩
        · exact ⟨_, by rw [← Except.error.inj he]⟩
      · exact ⟨_, by rw [← Except.error.inj he]⟩

/-- C1 counterexample: the claim fails for arbitrary uncompleted records —
the record with description `"x"` renders to the line `x`, which the
parser reads as a completed empty task and rejects, so `parse(render(t))`
does not even succeed. -/
theorem c1_round_trip_counterexample :
    (Todo.new ['x']).completed = false ∧
    ¬ ∃ t', parse_todo (Todo.render (Todo.new ['x'])) = Except.ok t' := by
  refine ⟨rfl, ?_⟩
  rintro ⟨t', ht⟩
  have herr : parse_todo (Todo.render (Todo.new ['x'])) =
      Except.error (TodoError.ParseError msgEmptyTask) := by decide
  rw [herr] at ht
  cases ht

/-- C1 (amended).  For every uncompleted, well-formed (`RenderSafe`)
record, parsing the rendered line succeeds and preserves the priority,
the creation date, the description text, the ordered context and project
sequences, and the tag map. -/
theorem c1_round_trip (t : Todo) (hc : t.completed = false) (hrs : RenderSafe t) :
    ∃ t', parse_todo (Todo.render t) = Except.ok t' ∧
      t'.priority = t.priority ∧ t'.creation_date = t.creation_date ∧
      t'.description = t.description ∧ t'.contexts = t.contexts ∧
      t'.projects = t.projects ∧
      (∀ k, tagsLookup k t'.tags = tagsLookup k t.tags) :=
  ⟨_, parse_todo_render t hc hrs, rfl, rfl, rfl, rfl, rfl,
   fun k => tagsLookup_perm (sortTags t.tags) t.tags (List.perm_insertionSort _ t.tags)
     (sortTags_keys_nodup hrs.tagKeysNodup) k⟩

/-- C1 witness: the round trip at a concrete well-formed record with a
priority, a creation date, a context, a project and a tag. -/
theorem c1_round_trip_witness :
    ∃ t', parse_todo (Todo.render (Todo.mk false (some (Priority.mk 'A')) none
        (some (Date.mk 2024 11 1)) ("Call Mom").data [("phone").data]
        [("Family").data] [(("due").data, ("2024-11-10").data)])) = Except.ok t' ∧
      t'.priority = some (Priority.mk 'A') ∧
      t'.creation_date = some (Date.mk 2024 11 1) ∧
      t'.description = ("Call Mom").data ∧
      t'.contexts = [("phone").data] ∧
      t'.projects = [("Family").data] ∧
      (∀ k, tagsLookup k t'.tags =
        tagsLookup k [(("due").data, ("2024-11-10").data)]) :=
  c1_round_trip _ rfl
    ⟨by decide, by decide, by decide, by decide, by decide, by decide, by decide,
     by decide, Or.inl (by decide), by decide, by decide⟩

/-! ## Lemmas: the lenient date grammar (for C2) -/

theorem dropWhile_noWs (x : List Char) (h : noWs x = true) :
    x.dropWhile rustWhitespace = x := by
  cases x with
  | nil => rfl
  | cons c cs =>
    have hc := (noWs_iff.mp h) c (by simp)
    simp [List.dropWhile, hc]

theorem noWs_sub_append (a b : List Char) (h : noWs (a ++ b) = true) :
    noWs a = true ∧ noWs b = true := by
  rw [noWs_iff] at h
  exact ⟨noWs_iff.mpr (fun c hc => h c (by simp [hc])),
    noWs_iff.mpr (fun c hc => h c (by simp [hc]))⟩

theorem noWs_sub_cons (c : Char) (cs : List Char) (h : noWs (c :: cs) = true) :
    noWs cs = true := by
  rw [noWs_iff] at h
  exact noWs_iff.mpr (fun x hx => h x (by simp [hx]))

theorem splitOnChar_ne_nil (sep : Char) (r : List Char) : splitOnChar sep r ≠ [] := by
  cases r with
  | nil => simp [splitOnChar]
  | cons c rest =>
    by_cases hc : c = sep
    · simp [splitOnChar, hc]
    · simp only [splitOnChar, if_neg hc]
      cases hsp : splitOnChar sep rest <;> simp

theorem splitOnChar_build (sep : Char) (g rest : List Char) (h : ¬ sep ∈ g) :
    splitOnChar sep (g ++ sep :: rest) = g :: splitOnChar sep rest := by
  induction g with
  | nil => simp [splitOnChar]
  | cons c g' ih =>
    have hc : ¬ c = sep := fun hcc => h (by simp [hcc])
    have ih' := ih (fun hmem => h (by simp [hmem]))
    simp only [List.cons_append, splitOnChar, if_neg hc, List.append_eq]
    rw [ih']

theorem splitOnChar_single (sep : Char) (g : List Char) (h : ¬ sep ∈ g) :
    splitOnChar sep g = [g] := by
  induction g with
  | nil => rfl
  | cons c g' ih =>
    have hc : ¬ c = sep := fun hcc => h (by simp [hcc])
    have ih' := ih (fun hmem => h (by simp [hmem]))
    simp only [splitOnChar, if_neg hc, ih']

theorem splitOnChar_inv_cons (sep : Char) (r : List Char) :
    ∀ g gs, splitOnChar sep r = g :: gs →
      (gs = [] ∧ r = g ∧ ¬ sep ∈ g) ∨
      (∃ rest, r = g ++ sep :: rest ∧ splitOnChar sep rest = gs ∧ ¬ sep ∈ g) := by
  induction r with
  | nil =>
    intro g gs h
    simp only [splitOnChar] at h
    obtain ⟨hg, hgs⟩ := List.cons.inj h
    exact Or.inl ⟨hgs.symm, hg, by rw [← hg]; simp⟩
  | cons c r' ih =>
    intro g gs h
    by_cases hc : c = sep
    · subst hc
      simp only [splitOnChar, if_pos rfl] at h
      obtain ⟨hg, hgs⟩ := List.cons.inj h
      refine Or.inr ⟨r', ?_, hgs, by rw [← hg]; simp⟩
      rw [← hg]
      simp
    · simp only [splitOnChar, if_neg hc] at h
      obtain ⟨g', gs', hsp⟩ : ∃ g' gs', splitOnChar sep r' = g' :: gs' := by
        cases hx : splitOnChar sep r' with
        | nil => exact absurd hx (splitOnChar_ne_nil sep r')
        | cons a b => exact ⟨a, b, rfl⟩
      rw [hsp] at h
      obtain ⟨hg, hgs⟩ := List.cons.inj h
      rcases ih g' gs' hsp with ⟨hgs', hr', hnot⟩ | ⟨rest, hr', hsp', hnot⟩
      · refine Or.inl ⟨by rw [← hgs, hgs'], ?_, ?_⟩
        · rw [← hg, ← hr']
        · rw [← hg]
          intro hmem
          rcases List.mem_cons.mp hmem with hmem | hmem
          · exact hc hmem.symm
          · exact hnot hmem
      · refine Or.inr ⟨rest, ?_, by rw [← hgs]; exact hsp', ?_⟩
        · rw [← hg, hr']
          rfl
        · rw [← hg]
          intro hmem
          rcases List.mem_cons.mp hmem with hmem | hmem
          · exact hc hmem.symm
          · exact hnot hmem

theorem scanNumber_inv (max : Nat) (s : List Char) (v : Nat) (rest : List Char)
    (h : scanNumber max s = some (v, rest)) :
    ∃ ds, s = ds ++ rest ∧ ds ≠ [] ∧ (∀ c ∈ ds, c.isDigit = true) ∧
      ds.length ≤ max ∧ v = digitsVal ds := by
  unfold scanNumber at h
  simp only [] at h
  split at h
  · cases h
  · next hne =>
    obtain ⟨v_eq, rest_eq⟩ := Prod.mk.injEq _ _ _ _ ▸ Option.some.inj h
    set ds := ((s.takeWhile Char.isDigit).take max) with hds
    have hpre : List.IsPrefix ds s :=
      (List.take_prefix max (s.takeWhile Char.isDigit)).trans (List.takeWhile_prefix _)
    obtain ⟨u, hu⟩ := hpre
    refine ⟨ds, ?_, hne, ?_, ?_, v_eq.symm⟩
    · rw [← hu]
      congr 1
      rw [← rest_eq, ← hu, List.drop_left]
    · intro c hc
      have hmem : c ∈ s.takeWhile Char.isDigit :=
        (List.take_prefix max _).subset hc
      exact List.mem_takeWhile_imp hmem
    · rw [hds, List.length_take]
      omega

theorem stages_of_groups (ys ms ds : List Char)
    (hys : ys ≠ []) (hysd : ∀ c ∈ ys, c.isDigit = true)
    (hms : ms ≠ []) (hmsd : ∀ c ∈ ms, c.isDigit = true) (hms2 : ms.length ≤ 2)
    (hds : ds ≠ []) (hdsd : ∀ c ∈ ds, c.isDigit = true) (hds2 : ds.length ≤ 2)
    (maxY : Nat) (hmaxY : ys.length ≤ maxY) :
    scanNumber maxY (ys ++ '-' :: (ms ++ '-' :: ds)) =
      some (digitsVal ys, '-' :: (ms ++ '-' :: ds)) ∧
    parseNumField 2 (ms ++ '-' :: ds) = some (digitsVal ms, '-' :: ds) ∧
    parseNumField 2 ds = some (digitsVal ds, []) := by
  have hdash : ('-').isDigit = false := by decide
  refine ⟨?_, ?_, ?_⟩
  · exact scanNumber_exact maxY ys _ hys hysd hmaxY
      (Or.inr (takeWhile_nil_of_head _ _ _ hdash))
  · obtain ⟨c0, ms', hms'⟩ := List.exists_cons_of_ne_nil hms
    have hc0d : c0.isDigit = true := hmsd c0 (by rw [hms']; simp)
    have hc0w := isDigit_not_ws c0 hc0d
    have hshape : ms ++ '-' :: ds = c0 :: (ms' ++ '-' :: ds) := by
      rw [hms']
      rfl
    rw [hshape, parseNumField_cons 2 _ _ hc0w, ← hshape]
    exact scanNumber_exact 2 ms _ hms hmsd hms2
      (Or.inr (takeWhile_nil_of_head _ _ _ hdash))
  · obtain ⟨c0, ds', hds'⟩ := List.exists_cons_of_ne_nil hds
    have hc0d : c0.isDigit = true := hdsd c0 (by rw [hds']; simp)
    have hc0w := isDigit_not_ws c0 hc0d
    rw [hds', parseNumField_cons 2 _ _ hc0w, ← hds']
    have := scanNumber_exact 2 ds [] hds hdsd hds2 (Or.inr rfl)
    rwa [List.append_nil] at this

theorem not_dash_mem_of_digits (g : List Char) (h : ∀ c ∈ g, c.isDigit = true) :
    ¬ '-' ∈ g := by
  intro hmem
  have := h '-' hmem
  simp at this

theorem dateFromGroups_inv (sign : Int) (capped : Bool) (r : List Char) (dt : Date)
    (h : dateFromGroups sign capped r = some dt) :
    ∃ ys ms ds, r = ys ++ '-' :: (ms ++ '-' :: ds) ∧
      ys ≠ [] ∧ (∀ c ∈ ys, c.isDigit = true) ∧ (capped = true → ys.length ≤ 4) ∧
      ms ≠ [] ∧ (∀ c ∈ ms, c.isDigit = true) ∧ ms.length ≤ 2 ∧
      ds ≠ [] ∧ (∀ c ∈ ds, c.isDigit = true) ∧ ds.length ≤ 2 ∧
      from_ymd_opt (sign * (digitsVal ys : Int)) (digitsVal ms) (digitsVal ds) =
        some dt := by
  unfold dateFromGroups at h
  split at h
  · next ys ms ds heq =>
    split at h
    · next hguard =>
      obtain ⟨hys, hysall, hcap, hms, hmsall, hms2, hds, hdsall, hds2⟩ := hguard
      have hysd : ∀ c ∈ ys, c.isDigit = true := List.all_eq_true.mp hysall
      have hmsd : ∀ c ∈ ms, c.isDigit = true := List.all_eq_true.mp hmsall
      have hdsd : ∀ c ∈ ds, c.isDigit = true := List.all_eq_true.mp hdsall
      rcases splitOnChar_inv_cons '-' r ys [ms, ds] heq with
        ⟨hnil, _, _⟩ | ⟨rest1, hr1, hsp1, _⟩
      · cases hnil
      rcases splitOnChar_inv_cons '-' rest1 ms [ds] hsp1 with
        ⟨hnil, _, _⟩ | ⟨rest2, hr2, hsp2, _⟩
      · cases hnil
      rcases splitOnChar_inv_cons '-' rest2 ds [] hsp2 with
        ⟨_, hr3, _⟩ | ⟨rest3, _, hsp3, _⟩
      · refine ⟨ys, ms, ds, ?_, hys, hysd, fun hcp => hcap hcp, hms, hmsd, hms2,
          hds, hdsd, hds2, h⟩
        rw [hr1, hr2, hr3]
      · exact absurd hsp3 (splitOnChar_ne_nil '-' rest3)
    · cases h
  · cases h

theorem dateFromGroups_build (sign : Int) (capped : Bool) (ys ms ds : List Char)
    (hys : ys ≠ []) (hysd : ∀ c ∈ ys, c.isDigit = true)
    (hcap : capped = true → ys.length ≤ 4)
    (hms : ms ≠ []) (hmsd : ∀ c ∈ ms, c.isDigit = true) (hms2 : ms.length ≤ 2)
    (hds : ds ≠ []) (hdsd : ∀ c ∈ ds, c.isDigit = true) (hds2 : ds.length ≤ 2) :
    dateFromGroups sign capped (ys ++ '-' :: (ms ++ '-' :: ds)) =
      from_ymd_opt (sign * (digitsVal ys : Int)) (digitsVal ms) (digitsVal ds) := by
  unfold dateFromGroups
  rw [splitOnChar_build '-' ys _ (not_dash_mem_of_digits ys hysd),
    splitOnChar_build '-' ms _ (not_dash_mem_of_digits ms hmsd),
    splitOnChar_single '-' ds (not_dash_mem_of_digits ds hdsd)]
  show (if ys ≠ [] ∧ allDigits ys = true ∧ (capped = true → ys.length ≤ 4) ∧
      ms ≠ [] ∧ allDigits ms = true ∧ ms.length ≤ 2 ∧
      ds ≠ [] ∧ allDigits ds = true ∧ ds.length ≤ 2 then
    from_ymd_opt (sign * (digitsVal ys : Int)) (digitsVal ms) (digitsVal ds)
  else none) = from_ymd_opt (sign * (digitsVal ys : Int)) (digitsVal ms) (digitsVal ds)
  rw [if_pos ⟨hys, List.all_eq_true.mpr hysd, fun hcp => hcap hcp,
    hms, List.all_eq_true.mpr hmsd, hms2, hds, List.all_eq_true.mpr hdsd, hds2⟩]

theorem parse_date_of_spec (s : List Char) (dt : Date) (hnw : noWs s = true)
    (h : dateTokenSpec s = some dt) : parse_date s = some dt := by
  unfold dateTokenSpec at h
  split at h
  · -- s = '-' :: r
    next r =>
    obtain ⟨ys, ms, ds, hr, hys, hysd, _, hms, hmsd, hms2, hds, hdsd, hds2, hval⟩ :=
      dateFromGroups_inv (-1) false r dt h
    subst hr
    have hst := stages_of_groups ys ms ds hys hysd hms hmsd hms2 hds hdsd hds2
      (ys ++ '-' :: (ms ++ '-' :: ds)).length (by simp)
    have hy : parseYearField ('-' :: (ys ++ '-' :: (ms ++ '-' :: ds))) =
        some (-(digitsVal ys : Int), '-' :: (ms ++ '-' :: ds)) := by
      rw [parseYearField_neg, hst.1]
      rfl
    rw [parse_date_of_stages _ _ _ _ _ _ hy hst.2.1 hst.2.2]
    rw [← hval]
    congr 1
    omega
  · -- s = '+' :: r
    next r =>
    obtain ⟨ys, ms, ds, hr, hys, hysd, _, hms, hmsd, hms2, hds, hdsd, hds2, hval⟩ :=
      dateFromGroups_inv 1 false r dt h
    subst hr
    have hst := stages_of_groups ys ms ds hys hysd hms hmsd hms2 hds hdsd hds2
      (ys ++ '-' :: (ms ++ '-' :: ds)).length (by simp)
    have hy : parseYearField ('+' :: (ys ++ '-' :: (ms ++ '-' :: ds))) =
        some ((digitsVal ys : Int), '-' :: (ms ++ '-' :: ds)) := by
      rw [parseYearField_pos, hst.1]
      rfl
    rw [parse_date_of_stages _ _ _ _ _ _ hy hst.2.1 hst.2.2]
    rw [← hval]
    congr 1
    omega
  · -- unsigned
    obtain ⟨ys, ms, ds, hr, hys, hysd, hcap, hms, hmsd, hms2, hds, hdsd, hds2, hval⟩ :=
      dateFromGroups_inv 1 true s dt h
    have hst := stages_of_groups ys ms ds hys hysd hms hmsd hms2 hds hdsd hds2
      4 (hcap rfl)
    obtain ⟨c0, ys', hys'⟩ := List.exists_cons_of_ne_nil hys
    have hc0d : c0.isDigit = true := hysd c0 (by rw [hys']; simp)
    obtain ⟨hne1, hne2, _, _, _, _⟩ := isDigit_ne c0 hc0d
    have hshape : s = c0 :: (ys' ++ '-' :: (ms ++ '-' :: ds)) := by
      rw [hr, hys']
      rfl
    have hy : parseYearField s = some ((digitsVal ys : Int), '-' :: (ms ++ '-' :: ds)) := by
      rw [hshape, parseYearField_cons c0 _ (isDigit_not_ws c0 hc0d) hne1 hne2,
        ← hshape, hr, hst.1]
      rfl
    rw [parse_date_of_stages _ _ _ _ _ _ hy hst.2.1 hst.2.2]
    rw [← hval]
    congr 1
    omega

theorem map_some_inv {α β : Type} (f : α → β) (o : Option α) (b : β)
    (h : o.map f = some b) : ∃ a, o = some a ∧ f a = b := by
  cases o with
  | none => cases h
  | some a => exact ⟨a, rfl, Option.some.inj h⟩

theorem spec_of_parse_date (s : List Char) (dt : Date) (hnw : noWs s = true)
    (h : parse_date s = some dt) : dateTokenSpec s = some dt := by
  unfold parse_date at h
  split at h
  · cases h
  · next y s1 heqy =>
    split at h
    · next s2 =>
      split at h
      · cases h
      · next m s3 heqm =>
        split at h
        · next s4 =>
          split at h
          · cases h
          · next d s5 heqd =>
            split at h
            · next hs5 =>
              -- h : from_ymd_opt y m d = some dt, with all stages inverted below
              subst hs5
              -- invert the month and day scans
              unfold parseYearField at heqy
              rw [dropWhile_noWs s hnw] at heqy
              split at heqy
              · next rr r =>
                -- s was substituted with '-' :: r (negative year)
                obtain ⟨⟨v, rest⟩, hscan, hmap⟩ := map_some_inv _ _ _ heqy
                have hyv : -((v : Int)) = y := congrArg Prod.fst hmap
                have hrest : rest = '-' :: s2 := congrArg Prod.snd hmap
                obtain ⟨ys, hr, hys, hysd, _, hval⟩ :=
                  scanNumber_inv _ _ _ _ hscan
                have hnwr : noWs r = true := noWs_sub_cons _ _ hnw
                have hnws2 : noWs s2 = true := by
                  rw [hr, hrest] at hnwr
                  have := (noWs_sub_append _ _ hnwr).2
                  exact noWs_sub_cons _ _ this
                unfold parseNumField at heqm
                rw [dropWhile_noWs s2 hnws2] at heqm
                obtain ⟨ms, hs2, hms, hmsd, hms2, hmv⟩ :=
                  scanNumber_inv _ _ _ _ heqm
                have hnws4 : noWs s4 = true := by
                  rw [hs2] at hnws2
                  have := (noWs_sub_append _ _ hnws2).2
                  exact noWs_sub_cons _ _ this
                unfold parseNumField at heqd
                rw [dropWhile_noWs s4 hnws4] at heqd
                obtain ⟨ds, hs4, hds, hdsd, hds2, hdv⟩ :=
                  scanNumber_inv _ _ _ _ heqd
                rw [List.append_nil] at hs4
                have hrdecomp : r = ys ++ '-' :: (ms ++ '-' :: ds) := by
                  rw [hr, hrest, hs2, hs4]
                rw [hrdecomp]
                have hred : dateTokenSpec ('-' :: (ys ++ '-' :: (ms ++ '-' :: ds))) =
                    dateFromGroups (-1) false (ys ++ '-' :: (ms ++ '-' :: ds)) := rfl
                rw [hred, dateFromGroups_build (-1) false ys ms ds hys hysd
                  (by intro hcon; cases hcon) hms hmsd hms2 hds hdsd hds2]
                rw [← h]
                have hy2 : (-1 : Int) * (digitsVal ys : Int) = y := by
                  rw [← hyv, hval]
                  omega
                rw [hy2, hmv, hdv]
              · next rr r =>
                -- s was substituted with '+' :: r (explicit plus sign)
                obtain ⟨⟨v, rest⟩, hscan, hmap⟩ := map_some_inv _ _ _ heqy
                have hyv : ((v : Int)) = y := congrArg Prod.fst hmap
                have hrest : rest = '-' :: s2 := congrArg Prod.snd hmap
                obtain ⟨ys, hr, hys, hysd, _, hval⟩ :=
                  scanNumber_inv _ _ _ _ hscan
                have hnwr : noWs r = true := noWs_sub_cons _ _ hnw
                have hnws2 : noWs s2 = true := by
                  rw [hr, hrest] at hnwr
                  have := (noWs_sub_append _ _ hnwr).2
                  exact noWs_sub_cons _ _ this
                unfold parseNumField at heqm
                rw [dropWhile_noWs s2 hnws2] at heqm
                obtain ⟨ms, hs2, hms, hmsd, hms2, hmv⟩ :=
                  scanNumber_inv _ _ _ _ heqm
                have hnws4 : noWs s4 = true := by
                  rw [hs2] at hnws2
                  have := (noWs_sub_append _ _ hnws2).2
                  exact noWs_sub_cons _ _ this
                unfold parseNumField at heqd
                rw [dropWhile_noWs s4 hnws4] at heqd
                obtain ⟨ds, hs4, hds, hdsd, hds2, hdv⟩ :=
                  scanNumber_inv _ _ _ _ heqd
                rw [List.append_nil] at hs4
                have hrdecomp : r = ys ++ '-' :: (ms ++ '-' :: ds) := by
                  rw [hr, hrest, hs2, hs4]
                rw [hrdecomp]
                have hred : dateTokenSpec ('+' :: (ys ++ '-' :: (ms ++ '-' :: ds))) =
                    dateFromGroups 1 false (ys ++ '-' :: (ms ++ '-' :: ds)) := rfl
                rw [hred, dateFromGroups_build 1 false ys ms ds hys hysd
                  (by intro hcon; cases hcon) hms hmsd hms2 hds hdsd hds2]
                rw [← h]
                have hy2 : (1 : Int) * (digitsVal ys : Int) = y := by
                  rw [← hyv, hval]
                  omega
                rw [hy2, hmv, hdv]
              · -- unsigned year, at most 4 digits
                obtain ⟨⟨v, rest⟩, hscan, hmap⟩ := map_some_inv _ _ _ heqy
                have hyv : ((v : Int)) = y := congrArg Prod.fst hmap
                have hrest : rest = '-' :: s2 := congrArg Prod.snd hmap
                obtain ⟨ys, hr, hys, hysd, hys4, hval⟩ :=
                  scanNumber_inv _ _ _ _ hscan
                have hnws2 : noWs s2 = true := by
                  rw [hr, hrest] at hnw
                  have := (noWs_sub_append _ _ hnw).2
                  exact noWs_sub_cons _ _ this
                unfold parseNumField at heqm
                rw [dropWhile_noWs s2 hnws2] at heqm
                obtain ⟨ms, hs2, hms, hmsd, hms2, hmv⟩ :=
                  scanNumber_inv _ _ _ _ heqm
                have hnws4 : noWs s4 = true := by
                  rw [hs2] at hnws2
                  have := (noWs_sub_append _ _ hnws2).2
                  exact noWs_sub_cons _ _ this
                unfold parseNumField at heqd
                rw [dropWhile_noWs s4 hnws4] at heqd
                obtain ⟨ds, hs4, hds, hdsd, hds2, hdv⟩ :=
                  scanNumber_inv _ _ _ _ heqd
                rw [List.append_nil] at hs4
                have hsdecomp : s = ys ++ '-' :: (ms ++ '-' :: ds) := by
                  rw [hr, hrest, hs2, hs4]
                obtain ⟨c0, ys', hys'⟩ := List.exists_cons_of_ne_nil hys
                have hc0d : c0.isDigit = true := hysd c0 (by rw [hys']; simp)
                obtain ⟨hned, hnep, _, _, _, _⟩ := isDigit_ne c0 hc0d
                have hshape : s = c0 :: (ys' ++ '-' :: (ms ++ '-' :: ds)) := by
                  rw [hsdecomp, hys']
                  rfl
                rw [hshape]
                unfold dateTokenSpec
                split
                · next r2 heq2 =>
                  exact absurd (List.head_eq_of_cons_eq heq2) hned
                · next r2 heq2 =>
                  exact absurd (List.head_eq_of_cons_eq heq2) hnep
                · rw [← hshape, hsdecomp]
                  rw [dateFromGroups_build 1 true ys ms ds hys hysd
                    (fun _ => hys4) hms hmsd hms2 hds hdsd hds2]
                  rw [← h]
                  have hy2 : (1 : Int) * (digitsVal ys : Int) = y := by
                    rw [← hyv, hval]
                    omega
                  rw [hy2, hmv, hdv]
            · cases h
        · cases h
    · cases h

/-- C6 witness: `(B)` parses to the priority `B`, and `(b)` fails with an
`InvalidPriority` error. -/
theorem c6_priority_from_str_witness :
    priorityFromStr ['(', 'B', ')'] = Except.ok (Priority.mk 'B') ∧
    (∃ m, priorityFromStr ("(b)").data =
      Except.error (TodoError.InvalidPriority m)) := by
  constructor
  · exact (c6_priority_from_str ['(', 'B', ')']).2.1 'B' (by decide) (by decide)
  · refine (c6_priority_from_str ("(b)").data).2.2 (fun p hp => ?_)
    rw [show priorityFromStr ("(b)").data =
      Except.error (TodoError.InvalidPriority (msgPrioLetter ++ ['b'])) from by decide] at hp
    cases hp

/-- C2 counterexample: the token `2024-1-3` is not of the exact
`YYYY-MM-DD` shape (its month and day have one digit), yet `parse_date`
accepts it and the line parser consumes it as a creation date instead of
letting it fall through to the description. -/
theorem c2_date_counterexample :
    isExactDateShape ("2024-1-3").data = false ∧
    parse_date ("2024-1-3").data = some (Date.mk 2024 1 3) ∧
    parse_todo ("2024-1-3 pay rent").data =
      Except.ok (Todo.mk false none none (some (Date.mk 2024 1 3))
        ("pay rent").data [] [] []) :=
  ⟨by decide, by decide, by decide⟩

/-- C2 (amended).  On whitespace-free tokens, `parse_date` (and hence the
date consumption of the completion-date and creation-date slots of
`parse_todo`, which apply `parse_date` to whitespace-split tokens) accepts
exactly chrono's lenient `%Y-%m-%d` grammar `dateTokenSpec`: an optional
explicit sign (after which the year may have any number of digits),
otherwise a 1-to-4-digit year, a literal `-`, a 1-or-2-digit month, a
literal `-` and a 1-or-2-digit day filling the whole token, and the
resulting numbers must form a calendar-valid date.  In particular every
calendar-valid exact `YYYY-MM-DD` token is consumed, but unpadded or
signed variants are consumed as well rather than falling through. -/
theorem c2_parse_date_grammar : ∀ s : List Char, noWs s = true →
    parse_date s = dateTokenSpec s := by
  intro s hnw
  cases hpd : parse_date s with
  | some dt => exact (spec_of_parse_date s dt hnw hpd).symm
  | none =>
    cases hsp : dateTokenSpec s with
    | none => rfl
    | some dt =>
      rw [parse_date_of_spec s dt hnw hsp] at hpd
      cases hpd

/-- C2 witness: the grammar equivalence evaluated at a concrete exact-shape
token and at an unpadded token. -/
theorem c2_parse_date_grammar_witness :
    parse_date ("2024-11-03").data = dateTokenSpec ("2024-11-03").data ∧
    parse_date ("2024-11-03").data = some (Date.mk 2024 11 3) ∧
    parse_date ("99-2-29").data = dateTokenSpec ("99-2-29").data ∧
    parse_date ("99-2-29").data = none :=
  ⟨c2_parse_date_grammar ("2024-11-03").data (by decide), by decide,
   c2_parse_date_grammar ("99-2-29").data (by decide), by decide⟩

end TodoRs
